import Mathlib

/-!
Verification of the connection-state coordinator of a Socket.IO chat server
(room chat with presence, plus anonymous "stranger" pairing).

The socket-event handlers and their in-memory structures (`waitingQueue`,
`roomMembers`, per-socket closure variables `currentRoom`/`user`, and
`socket.data.{strangerRoom, partnerId}`) are embedded as pure functions on an
explicit `State`.  Emissions (`socket.emit`, `io.to(room).emit`,
`socket.to(room).emit`) are recorded as a list of targeted events, in call
order.  JS `Map`s and `Set`s are modelled as insertion-ordered association
lists / duplicate-free lists, matching their iteration semantics; the only
structure whose iteration order the code relies on is `waitingQueue`
(`const [partnerId] = waitingQueue` takes the first inserted element).
Fresh `nanoid()` identifiers (message ids and `stranger-` room names) are
modelled by a monotone counter `nextId`; `Date.now()` timestamps are passed
as explicit parameters of the message-bearing events.
-/

set_option linter.unusedVariables false

namespace Chat

/-- JS runtime values that can appear in inbound socket payloads. -/
inductive JSVal where
  | vNull
  | vUndef
  | vBool (b : Bool)
  | vNum (n : Int)
  | vStr (s : String)
deriving DecidableEq, Repr

/-- JS truthiness. -/
def truthy : JSVal → Bool
  | .vNull => false
  | .vUndef => false
  | .vBool b => b
  | .vNum n => n != 0
  | .vStr s => s != ""

/-- `String(v)` coercion. -/
def jsToString : JSVal → String
  | .vNull => "null"
  | .vUndef => "undefined"
  | .vBool true => "true"
  | .vBool false => "false"
  | .vNum n => toString n
  | .vStr s => s

/-- `a || b`. -/
def jsOr (a b : JSVal) : JSVal := if truthy a then a else b

/-- `a ?? b` (nullish coalescing). -/
def jsNullish (a b : JSVal) : JSVal :=
  match a with
  | .vNull => b
  | .vUndef => b
  | _ => a

/-- `s.slice(0, n)`. -/
def strTake (s : String) (n : Nat) : String := String.mk (s.data.take n)

/-- `const safeRoom = String(room || 'general').slice(0, 50)` in the join handler. -/
def safeRoom (room : JSVal) : String := strTake (jsToString (jsOr room (.vStr "general"))) 50

/-! ### Association lists (JS `Map` semantics) -/

section AList

variable {κ α : Type} [DecidableEq κ]

/-- `m.get(k)`. -/
def alookup : List (κ × α) → κ → Option α
  | [], _ => none
  | (k', v) :: t, k => if k' = k then some v else alookup t k

/-- `m.set(k, v)`: replace in place if present, else append (JS Map insertion order). -/
def aset : List (κ × α) → κ → α → List (κ × α)
  | [], k, v => [(k, v)]
  | (k', v') :: t, k, v => if k' = k then (k, v) :: t else (k', v') :: aset t k v

/-- `m.delete(k)`: removes the (first) entry with key `k`. -/
def adel : List (κ × α) → κ → List (κ × α)
  | [], _ => []
  | (k', v') :: t, k => if k' = k then t else (k', v') :: adel t k

@[simp] theorem alookup_nil (k : κ) : alookup ([] : List (κ × α)) k = none := rfl

@[simp] theorem alookup_cons (k' : κ) (v : α) (t : List (κ × α)) (k : κ) :
    alookup ((k', v) :: t) k = if k' = k then some v else alookup t k := rfl

theorem alookup_aset_self (m : List (κ × α)) (k : κ) (v : α) :
    alookup (aset m k v) k = some v := by
  induction m with
  | nil => simp [aset, alookup]
  | cons e t ih =>
    obtain ⟨k', v'⟩ := e
    by_cases h : k' = k <;> simp [aset, alookup, h, ih]

theorem alookup_aset_ne (m : List (κ × α)) {k k' : κ} (v : α) (h : k' ≠ k) :
    alookup (aset m k v) k' = alookup m k' := by
  induction m with
  | nil => simp [aset, alookup, Ne.symm h]
  | cons e t ih =>
    obtain ⟨k₀, v₀⟩ := e
    by_cases h0 : k₀ = k
    · subst h0
      simp [aset, alookup, Ne.symm h]
    · simp [aset, if_neg h0, alookup_cons, ih]

/-- keys of an association list -/
def akeys (m : List (κ × α)) : List κ := m.map Prod.fst

theorem akeys_aset (m : List (κ × α)) (k : κ) (v : α) :
    akeys (aset m k v) = if k ∈ akeys m then akeys m else akeys m ++ [k] := by
  induction m with
  | nil => simp [aset, akeys]
  | cons e t ih =>
    obtain ⟨k₀, v₀⟩ := e
    by_cases h0 : k₀ = k
    · subst h0
      simp [aset, akeys]
    · simp only [aset, if_neg h0, akeys, List.map_cons] at ih ⊢
      rw [ih]
      by_cases hm : k ∈ t.map Prod.fst
      · simp [hm, Ne.symm h0]
      · simp [hm, Ne.symm h0]

theorem akeys_aset_nodup {m : List (κ × α)} (h : (akeys m).Nodup) (k : κ) (v : α) :
    (akeys (aset m k v)).Nodup := by
  rw [akeys_aset]
  by_cases hm : k ∈ akeys m
  · simpa [hm]
  · simp only [hm, if_false]
    refine List.Nodup.append h (List.nodup_singleton k) ?_
    intro x hx hmem
    simp only [List.mem_singleton] at hmem
    subst hmem
    exact hm hx

theorem adel_sublist (m : List (κ × α)) (k : κ) : (adel m k).Sublist m := by
  induction m with
  | nil => simp [adel]
  | cons e t ih =>
    obtain ⟨k₀, v₀⟩ := e
    by_cases h0 : k₀ = k
    · simp [adel, h0]
    · simp only [adel, if_neg h0]
      exact ih.cons₂ _

theorem akeys_adel_sublist (m : List (κ × α)) (k : κ) :
    (akeys (adel m k)).Sublist (akeys m) := (adel_sublist m k).map Prod.fst

theorem akeys_adel_nodup {m : List (κ × α)} (h : (akeys m).Nodup) (k : κ) :
    (akeys (adel m k)).Nodup := h.sublist (akeys_adel_sublist m k)

theorem alookup_adel_ne (m : List (κ × α)) {k k' : κ} (h : k' ≠ k) :
    alookup (adel m k) k' = alookup m k' := by
  induction m with
  | nil => simp [adel]
  | cons e t ih =>
    obtain ⟨k₀, v₀⟩ := e
    by_cases h0 : k₀ = k
    · subst h0
      simp [adel, alookup, Ne.symm h]
    · simp only [adel, if_neg h0, alookup_cons, ih]

theorem alookup_eq_none (m : List (κ × α)) (k : κ) (h : k ∉ akeys m) :
    alookup m k = none := by
  induction m with
  | nil => rfl
  | cons e t ih =>
    obtain ⟨k₀, v₀⟩ := e
    simp only [akeys, List.map_cons, List.mem_cons, not_or] at h
    simp only [alookup_cons]
    rw [if_neg (fun hh => h.1 hh.symm)]
    exact ih h.2

theorem alookup_adel_self {m : List (κ × α)} (h : (akeys m).Nodup) (k : κ) :
    alookup (adel m k) k = none := by
  induction m with
  | nil => rfl
  | cons e t ih =>
    obtain ⟨k₀, v₀⟩ := e
    rw [show akeys ((k₀, v₀) :: t) = k₀ :: akeys t from rfl, List.nodup_cons] at h
    by_cases h0 : k₀ = k
    · subst h0
      simp only [adel, if_pos rfl]
      exact alookup_eq_none t k₀ h.1
    · simp only [adel, if_neg h0, alookup_cons, if_neg h0]
      exact ih h.2

theorem alookup_mem {m : List (κ × α)} {k : κ} {v : α} (h : alookup m k = some v) :
    (k, v) ∈ m := by
  induction m with
  | nil => simp [alookup] at h
  | cons e t ih =>
    obtain ⟨k₀, v₀⟩ := e
    simp only [alookup_cons] at h
    by_cases h0 : k₀ = k
    · subst h0
      rw [if_pos rfl] at h
      obtain rfl : v₀ = v := Option.some.inj h
      exact List.mem_cons_self _ _
    · rw [if_neg h0] at h
      exact List.mem_cons_of_mem _ (ih h)

theorem mem_alookup {m : List (κ × α)} (hnd : (akeys m).Nodup) {k : κ} {v : α}
    (h : (k, v) ∈ m) : alookup m k = some v := by
  induction m with
  | nil => simp at h
  | cons e t ih =>
    obtain ⟨k₀, v₀⟩ := e
    simp only [akeys, List.map_cons, List.nodup_cons] at hnd
    rcases List.mem_cons.mp h with h | h
    · cases h
      simp [alookup]
    · have hk : k₀ ≠ k := by
        rintro rfl
        exact hnd.1 (List.mem_map_of_mem Prod.fst h)
      simp only [alookup_cons, if_neg hk]
      exact ih hnd.2 h

theorem aset_eq_self {m : List (κ × α)} {k : κ} {v : α} (h : alookup m k = some v) :
    aset m k v = m := by
  induction m with
  | nil => simp [alookup] at h
  | cons e t ih =>
    obtain ⟨k₀, v₀⟩ := e
    simp only [alookup_cons] at h
    by_cases h0 : k₀ = k
    · subst h0
      rw [if_pos rfl] at h
      obtain rfl : v₀ = v := Option.some.inj h
      simp [aset]
    · rw [if_neg h0] at h
      simp [aset, h0, ih h]

theorem mem_akeys_alookup {m : List (κ × α)} {k : κ} (h : k ∈ akeys m) :
    ∃ v, alookup m k = some v := by
  induction m with
  | nil => simp [akeys] at h
  | cons e t ih =>
    obtain ⟨k₀, v₀⟩ := e
    by_cases h0 : k₀ = k
    · exact ⟨v₀, by simp [alookup, h0]⟩
    · rcases List.mem_cons.mp h with h | h
      · exact absurd h.symm h0
      · obtain ⟨v, hv⟩ := ih h
        exact ⟨v, by simp [alookup, h0, hv]⟩

theorem not_mem_akeys_of_alookup_none {m : List (κ × α)} {k : κ}
    (h : alookup m k = none) : k ∉ akeys m := by
  intro hmem
  obtain ⟨v, hv⟩ := mem_akeys_alookup hmem
  rw [h] at hv
  cases hv

theorem aset_aset (m : List (κ × α)) (k : κ) (v w : α) :
    aset (aset m k v) k w = aset m k w := by
  induction m with
  | nil => simp [aset]
  | cons e t ih =>
    obtain ⟨k₀, v₀⟩ := e
    by_cases h0 : k₀ = k
    · simp [aset, h0]
    · simp [aset, h0, ih]

end AList

/-! ### Data model -/

/-- A persisted chat message record (`db.data.messages` entries). -/
structure Msg where
  id : Nat
  username : String
  room : String
  text : String
  ts : Nat
deriving DecidableEq, Repr

/-- Per-socket state: the handler closure variables (`user.username`,
`currentRoom`), `socket.data.strangerRoom` / `socket.data.partnerId`, and the
transport's liveness flag.  The socket object outlives disconnection; whether
it is still in `io.sockets.sockets` is tracked by `connected`. -/
structure Conn where
  username : String
  currentRoom : Option String := none
  strangerRoom : Option Nat := none
  partnerId : Option Nat := none
  connected : Bool := true
deriving DecidableEq, Repr

/-- A connection record with its pairing state cleared
(`socket.data.strangerRoom = null; socket.data.partnerId = null`). -/
def clearPair (c : Conn) : Conn := { c with strangerRoom := none, partnerId := none }

/-- A connection record bound into pairing channel `n` with partner `p`. -/
def bindPair (c : Conn) (n p : Nat) : Conn :=
  { c with strangerRoom := some n, partnerId := some p }

@[simp] theorem clearPair_username (c : Conn) : (clearPair c).username = c.username := rfl
@[simp] theorem clearPair_currentRoom (c : Conn) : (clearPair c).currentRoom = c.currentRoom := rfl
@[simp] theorem clearPair_strangerRoom (c : Conn) : (clearPair c).strangerRoom = none := rfl
@[simp] theorem clearPair_partnerId (c : Conn) : (clearPair c).partnerId = none := rfl
@[simp] theorem clearPair_connected (c : Conn) : (clearPair c).connected = c.connected := rfl
@[simp] theorem bindPair_username (c : Conn) (n p : Nat) :
    (bindPair c n p).username = c.username := rfl
@[simp] theorem bindPair_currentRoom (c : Conn) (n p : Nat) :
    (bindPair c n p).currentRoom = c.currentRoom := rfl
@[simp] theorem bindPair_strangerRoom (c : Conn) (n p : Nat) :
    (bindPair c n p).strangerRoom = some n := rfl
@[simp] theorem bindPair_partnerId (c : Conn) (n p : Nat) :
    (bindPair c n p).partnerId = some p := rfl
@[simp] theorem bindPair_connected (c : Conn) (n p : Nat) :
    (bindPair c n p).connected = c.connected := rfl

/-- The shared mutable server state. -/
structure State where
  /-- all socket objects ever connected, keyed by socket id -/
  conns : List (Nat × Conn) := []
  /-- `waitingQueue : Set<socket.id>` (insertion order) -/
  waitingQueue : List Nat := []
  /-- `roomMembers : Map<room, Set<socket.id>>` -/
  roomMembers : List (String × List Nat) := []
  /-- `db.data.messages` -/
  messages : List Msg := []
  /-- fresh-identifier source (`nanoid()`) -/
  nextId : Nat := 0
deriving DecidableEq, Repr

/-- Audience of an `emit` call. -/
inductive Target where
  | sock (i : Nat)
  | room (r : String)
  /-- `socket.to(r)`: room `r` excluding sender `i` -/
  | roomx (r : String) (i : Nat)
  /-- a `stranger-…` pairing channel -/
  | sroom (n : Nat)
deriving DecidableEq, Repr

/-- Outbound events, with their payloads. -/
inductive Ev where
  | systemMessage (text : String)
  | chatMessage (m : Msg)
  | typing (username : String) (isTyping : JSVal)
  | presence (room : String) (count : Nat)
  | history (msgs : List Msg)
  | waitingStranger
  | strangerFound
  | strangerMessage (id : Nat) (username : String) (text : String) (ts : Nat)
  | strangerLeft
  | youDisconnected
deriving DecidableEq, Repr

abbrev Emission := Target × Ev

/-! ### Helpers from the source (`joinRoom` / `leaveRoom` / `getUserCount`) -/

/-- JS `Set.add`: no-op when already present, else append. -/
def setAdd (l : List Nat) (i : Nat) : List Nat := if i ∈ l then l else l ++ [i]

def getConn (s : State) (i : Nat) : Option Conn := alookup s.conns i

def setConn (s : State) (i : Nat) (c : Conn) : State :=
  { s with conns := aset s.conns i c }

/-- `io.sockets.sockets.get(i)` combined with `.connected`: a socket is
retrievable from the namespace exactly while it is still connected. -/
def getLive (s : State) (i : Nat) : Option Conn :=
  match getConn s i with
  | some c => if c.connected then some c else none
  | none => none

def joinRoom (s : State) (i : Nat) (room : String) : State :=
  let l := (alookup s.roomMembers room).getD []
  { s with roomMembers := aset s.roomMembers room (setAdd l i) }

def leaveRoom (s : State) (i : Nat) (room : String) : State :=
  if room = "" then s
  else
    match alookup s.roomMembers room with
    | none => s
    | some l =>
      if l.erase i = [] then { s with roomMembers := adel s.roomMembers room }
      else { s with roomMembers := aset s.roomMembers room (l.erase i) }

def getUserCount (s : State) (room : String) : Nat :=
  ((alookup s.roomMembers room).getD []).length

/-! ### History backlog (`join` handler, lines 142-147) -/

/-- comparator `(a, b) => a.ts - b.ts`: ascending by timestamp. -/
def tsLe (a b : Msg) : Prop := a.ts ≤ b.ts

instance : DecidableRel tsLe := fun a b => Nat.decLe a.ts b.ts

instance : IsTotal Msg tsLe := ⟨fun a b => Nat.le_total a.ts b.ts⟩

instance : IsTrans Msg tsLe := ⟨fun _ _ _ => Nat.le_trans⟩

/-- `db.data.messages.filter(m => m.room === room).sort((a,b) => a.ts - b.ts).slice(-30)`.
JS `Array.prototype.sort` with this comparator is a stable ascending sort;
it is modelled by stable insertion sort, which produces the same sequence. -/
def historyFor (msgs : List Msg) (room : String) : List Msg :=
  let l := List.insertionSort tsLe (msgs.filter (fun m => m.room == room))
  l.drop (l.length - 30)

/-! ### Event handlers -/

/-- `socket.on('join', …)` (lines 129-152). -/
def onJoin (s : State) (i : Nat) (room : JSVal) : State × List Emission :=
  match getConn s i with
  | none => (s, [])
  | some c =>
    let sr := safeRoom room
    if c.currentRoom = some sr then (s, [])
    else
      let (s1, ems1) :=
        match c.currentRoom with
        | some old =>
          if old = "" then (s, [])   -- `if (currentRoom)`: "" is falsy
          else
            let s' := leaveRoom s i old
            (s', [(Target.room old, Ev.systemMessage (c.username ++ " left the room.")),
                  (Target.room old, Ev.presence old (getUserCount s' old))])
        | none => (s, [])
      let s2 := setConn s1 i { c with currentRoom := some sr }
      let s3 := joinRoom s2 i sr
      let hist := historyFor s3.messages sr
      (s3, ems1 ++
        [(Target.sock i, Ev.history hist),
         (Target.sock i, Ev.systemMessage ("Welcome " ++ c.username ++ "! You joined #" ++ sr ++ ".")),
         (Target.roomx sr i, Ev.systemMessage (c.username ++ " joined the room.")),
         (Target.room sr, Ev.presence sr (getUserCount s3 sr))])

/-- `socket.on('chatMessage', …)` (lines 154-167); `t` is `Date.now()`. -/
def onChatMessage (s : State) (i : Nat) (text : JSVal) (t : Nat) : State × List Emission :=
  match getConn s i with
  | none => (s, [])
  | some c =>
    match c.currentRoom with
    | none => (s, [])
    | some r =>
      if r = "" then (s, [])
      else
        let msg : Msg :=
          { id := s.nextId, username := c.username, room := r,
            text := strTake (jsToString (jsNullish text (.vStr ""))) 2000, ts := t }
        ({ s with messages := s.messages ++ [msg], nextId := s.nextId + 1 },
         [(Target.room r, Ev.chatMessage msg)])

/-- `socket.on('typing', …)` (lines 169-172). -/
def onTyping (s : State) (i : Nat) (isTyping : JSVal) : State × List Emission :=
  match getConn s i with
  | none => (s, [])
  | some c =>
    match c.currentRoom with
    | none => (s, [])
    | some r =>
      if r = "" then (s, [])
      else (s, [(Target.roomx r i, Ev.typing c.username (.vBool (truthy isTyping)))])

/-- `handleStrangerLeave(leaverSocket)` (lines 176-199). -/
def handleStrangerLeave (s : State) (i : Nat) : State × List Emission :=
  match getConn s i with
  | none => (s, [])
  | some c =>
    match c.strangerRoom with
    | none => (s, [])
    | some _room =>
      let ems0 : List Emission := [(Target.sock i, Ev.youDisconnected)]
      let (s1, ems1) :=
        match c.partnerId with
        | some pid =>
          match getLive s pid with
          | some p =>
            (setConn s pid { p with strangerRoom := none, partnerId := none },
             ems0 ++ [(Target.sock pid, Ev.strangerLeft)])
          | none => (s, ems0)
        | none => (s, ems0)
      let s2 :=
        match getConn s1 i with
        | some c2 => setConn s1 i { c2 with strangerRoom := none, partnerId := none }
        | none => s1
      (s2, ems1)

/-- The requester's own `socket.data` assignments (lines 226-227), which read
the socket object again after the partner's assignments. -/
def refetchBind (s4 : State) (i room partnerId : Nat) : State :=
  match getConn s4 i with
  | some me => setConn s4 i { me with strangerRoom := some room, partnerId := some partnerId }
  | none => s4

/-- The pool-matching part of the `findStranger` handler (lines 207-233),
entered after the initial "leave current stranger chat first" guard. -/
def findCore (s1 : State) (i : Nat) : State × List Emission :=
  match s1.waitingQueue with
  | partnerId :: rest =>
    let s2 := { s1 with waitingQueue := rest }
    match getLive s2 partnerId with
    | none =>
      -- partner vanished; put self in queue
      ({ s2 with waitingQueue := setAdd s2.waitingQueue i },
       [(Target.sock i, Ev.waitingStranger)])
    | some p =>
      let room := s2.nextId
      let s3 := { s2 with nextId := s2.nextId + 1 }
      let s4 := setConn s3 partnerId { p with strangerRoom := some room, partnerId := some i }
      (refetchBind s4 i room partnerId, [(Target.sroom room, Ev.strangerFound)])
  | [] =>
    ({ s1 with waitingQueue := setAdd s1.waitingQueue i },
     [(Target.sock i, Ev.waitingStranger)])

theorem refetchBind_eq {s4 : State} {i : Nat} {me : Conn} (h : getConn s4 i = some me)
    (n pid : Nat) : refetchBind s4 i n pid = setConn s4 i (bindPair me n pid) := by
  unfold refetchBind
  rw [h]
  rfl

/-- `socket.on('findStranger', …)` (lines 201-234). -/
def onFindStranger (s : State) (i : Nat) : State × List Emission :=
  match getConn s i with
  | none => (s, [])
  | some c0 =>
    let (s1, ems1) :=
      match c0.strangerRoom with
      | some _ => handleStrangerLeave s i
      | none => (s, [])
    ((findCore s1 i).1, ems1 ++ (findCore s1 i).2)

/-- `socket.on('strangerMessage', …)` (lines 236-254); `t` is `Date.now()`. -/
def onStrangerMessage (s : State) (i : Nat) (text : JSVal) (t : Nat) : State × List Emission :=
  match getConn s i with
  | none => (s, [])
  | some c =>
    match c.strangerRoom, c.partnerId with
    | some room, some pid =>
      match getLive s pid with
      | none => (s, [(Target.sock i, Ev.systemMessage "❌ Your partner has disconnected.")])
      | some _ =>
        ({ s with nextId := s.nextId + 1 },
         [(Target.sroom room,
           Ev.strangerMessage s.nextId c.username
             (strTake (jsToString (jsNullish text (.vStr ""))) 2000) t)])
    | _, _ => (s, [])

/-- `socket.on('leaveStranger', …)` (lines 256-265). -/
def onLeaveStranger (s : State) (i : Nat) : State × List Emission :=
  match getConn s i with
  | none => (s, [])
  | some c =>
    if i ∈ s.waitingQueue then
      ({ s with waitingQueue := s.waitingQueue.erase i }, [(Target.sock i, Ev.youDisconnected)])
    else
      match c.strangerRoom with
      | some _ => handleStrangerLeave s i
      | none => (s, [])

/-- `socket.on('disconnect', …)` handler body (lines 268-280).  When the
transport fires it, the socket has already been removed from
`io.sockets.sockets` (its `connected` flag is false); the closure variables
and `socket.data` are still readable. -/
def onDisconnect (s : State) (i : Nat) : State × List Emission :=
  match getConn s i with
  | none => (s, [])
  | some c =>
    let (s1, ems1) :=
      match c.currentRoom with
      | some r =>
        if r = "" then (s, [])
        else
          let s' := leaveRoom s i r
          (s', [(Target.room r, Ev.systemMessage (c.username ++ " left the room.")),
                (Target.room r, Ev.presence r (getUserCount s' r))])
      | none => (s, [])
    let s2 :=
      if i ∈ s1.waitingQueue then { s1 with waitingQueue := s1.waitingQueue.erase i } else s1
    match c.strangerRoom with
    | some _ =>
      ((handleStrangerLeave s2 i).1, ems1 ++ (handleStrangerLeave s2 i).2)
    | none => (s2, ems1)

/-- Mark the transport as closed: the socket leaves `io.sockets.sockets`. -/
def markClosed (s : State) (i : Nat) : State :=
  match getConn s i with
  | some c => setConn s i { c with connected := false }
  | none => s

/-- The disconnect-cleanup path: the transport closes the connection and then
runs the registered `disconnect` handler. -/
def disconnectCleanup (s : State) (i : Nat) : State × List Emission :=
  onDisconnect (markClosed s i) i

/-! ### Inbound events and reachability -/

/-- Inbound events.  `connect` carries the authenticated username (the
unauthorized path never creates state and is not modelled further);
message events carry their `Date.now()` value. -/
inductive InEv where
  | connect (i : Nat) (username : String)
  | join (i : Nat) (room : JSVal)
  | chatMsg (i : Nat) (text : JSVal) (t : Nat)
  | typing (i : Nat) (isTyping : JSVal)
  | findStranger (i : Nat)
  | strangerMsg (i : Nat) (text : JSVal) (t : Nat)
  | leaveStranger (i : Nat)
  | disconnect (i : Nat)
deriving DecidableEq, Repr

/-- Socket events are only delivered for sockets that are still connected. -/
def guardLive (s : State) (i : Nat) (act : State × List Emission) : State × List Emission :=
  if (getLive s i).isSome then act else (s, [])

/-- One atomic step of the coordinator. -/
def step (s : State) : InEv → State × List Emission
  | .connect i u =>
    match getConn s i with
    | some _ => (s, [])   -- socket ids are unique; a reused id is impossible
    | none => ({ s with conns := aset s.conns i { username := u } }, [])
  | .join i room => guardLive s i (onJoin s i room)
  | .chatMsg i text t => guardLive s i (onChatMessage s i text t)
  | .typing i v => guardLive s i (onTyping s i v)
  | .findStranger i => guardLive s i (onFindStranger s i)
  | .strangerMsg i text t => guardLive s i (onStrangerMessage s i text t)
  | .leaveStranger i => guardLive s i (onLeaveStranger s i)
  | .disconnect i =>
    if (getLive s i).isSome then disconnectCleanup s i else (s, [])

def initState : State := {}

/-- Run a trace of inbound events from the empty server state. -/
def run (tr : List InEv) : State := tr.foldl (fun s e => (step s e).1) initState

/-- States reachable from server start. -/
inductive Reachable : State → Prop
  | init : Reachable initState
  | step (e : InEv) {s : State} : Reachable s → Reachable (Chat.step s e).1

theorem reachable_foldl (tr : List InEv) {s : State} (h : Reachable s) :
    Reachable (tr.foldl (fun s e => (step s e).1) s) := by
  induction tr generalizing s with
  | nil => exact h
  | cons e t ih => exact ih (Reachable.step e h)

theorem reachable_run (tr : List InEv) : Reachable (run tr) :=
  reachable_foldl tr Reachable.init

/-! ### Field-preservation facts for the state helpers -/

@[simp] theorem leaveRoom_conns (s : State) (i : Nat) (r : String) :
    (leaveRoom s i r).conns = s.conns := by
  unfold leaveRoom
  repeat' split
  all_goals rfl

@[simp] theorem leaveRoom_messages (s : State) (i : Nat) (r : String) :
    (leaveRoom s i r).messages = s.messages := by
  unfold leaveRoom
  repeat' split
  all_goals rfl

@[simp] theorem leaveRoom_queue (s : State) (i : Nat) (r : String) :
    (leaveRoom s i r).waitingQueue = s.waitingQueue := by
  unfold leaveRoom
  repeat' split
  all_goals rfl

@[simp] theorem leaveRoom_nextId (s : State) (i : Nat) (r : String) :
    (leaveRoom s i r).nextId = s.nextId := by
  unfold leaveRoom
  repeat' split
  all_goals rfl

@[simp] theorem getConn_leaveRoom (s : State) (i j : Nat) (r : String) :
    getConn (leaveRoom s i r) j = getConn s j := by
  unfold getConn
  rw [leaveRoom_conns]

@[simp] theorem getConn_joinRoom (s : State) (i j : Nat) (r : String) :
    getConn (joinRoom s i r) j = getConn s j := rfl

@[simp] theorem joinRoom_conns (s : State) (i : Nat) (r : String) :
    (joinRoom s i r).conns = s.conns := rfl

@[simp] theorem joinRoom_messages (s : State) (i : Nat) (r : String) :
    (joinRoom s i r).messages = s.messages := rfl

@[simp] theorem joinRoom_queue (s : State) (i : Nat) (r : String) :
    (joinRoom s i r).waitingQueue = s.waitingQueue := rfl

@[simp] theorem joinRoom_nextId (s : State) (i : Nat) (r : String) :
    (joinRoom s i r).nextId = s.nextId := rfl

@[simp] theorem setConn_roomMembers (s : State) (i : Nat) (c : Conn) :
    (setConn s i c).roomMembers = s.roomMembers := rfl

@[simp] theorem setConn_messages (s : State) (i : Nat) (c : Conn) :
    (setConn s i c).messages = s.messages := rfl

@[simp] theorem setConn_queue (s : State) (i : Nat) (c : Conn) :
    (setConn s i c).waitingQueue = s.waitingQueue := rfl

@[simp] theorem setConn_nextId (s : State) (i : Nat) (c : Conn) :
    (setConn s i c).nextId = s.nextId := rfl

@[simp] theorem getLive_set_queue (s : State) (q : List Nat) (p : Nat) :
    getLive { s with waitingQueue := q } p = getLive s p := rfl

@[simp] theorem getConn_set_queue (s : State) (q : List Nat) (p : Nat) :
    getConn { s with waitingQueue := q } p = getConn s p := rfl

theorem getConn_setConn_self (s : State) (i : Nat) (c : Conn) :
    getConn (setConn s i c) i = some c := alookup_aset_self s.conns i c

theorem getConn_setConn_ne (s : State) {i j : Nat} (c : Conn) (h : j ≠ i) :
    getConn (setConn s i c) j = getConn s j := alookup_aset_ne s.conns c h

theorem getConn_setConn (s : State) (i : Nat) (c : Conn) (j : Nat) :
    getConn (setConn s i c) j = if i = j then some c else getConn s j := by
  by_cases h : i = j
  · subst h
    simp [getConn_setConn_self]
  · rw [if_neg h, getConn_setConn_ne s c (fun hh => h hh.symm)]

theorem getLive_eq_some {s : State} {p : Nat} {pc : Conn} :
    getLive s p = some pc ↔ getConn s p = some pc ∧ pc.connected = true := by
  unfold getLive
  cases h : getConn s p with
  | none => simp
  | some c =>
    dsimp only
    cases hc : c.connected with
    | true =>
      rw [if_pos rfl]
      constructor
      · intro h1
        obtain rfl : c = pc := Option.some.inj h1
        exact ⟨rfl, hc⟩
      · rintro ⟨h1, h2⟩
        obtain rfl : c = pc := Option.some.inj h1
        rfl
    | false =>
      rw [if_neg (by decide : ¬ (false = true))]
      constructor
      · intro h1
        exact Option.noConfusion h1
      · rintro ⟨h1, h2⟩
        obtain rfl : c = pc := Option.some.inj h1
        exact absurd h2 (by simp [hc])

theorem getLive_eq_none {s : State} {p : Nat} :
    getLive s p = none ↔ ∀ c, getConn s p = some c → c.connected = false := by
  unfold getLive
  cases h : getConn s p with
  | none => simp
  | some c =>
    dsimp only
    cases hc : c.connected with
    | true =>
      rw [if_pos rfl]
      constructor
      · intro h1
        exact Option.noConfusion h1
      · intro h1
        have h2 := h1 c rfl
        rw [hc] at h2
        exact absurd h2 (by decide)
    | false =>
      rw [if_neg (by decide : ¬ (false = true))]
      constructor
      · intro h1 c' hc'
        obtain rfl : c = c' := Option.some.inj hc'
        exact hc
      · intro h1
        rfl

/-- Lookup of the room-member map after `joinRoom`. -/
theorem alookup_joinRoom (s : State) (i : Nat) (r r' : String) :
    alookup (joinRoom s i r).roomMembers r' =
      if r = r' then some (setAdd ((alookup s.roomMembers r).getD []) i)
      else alookup s.roomMembers r' := by
  unfold joinRoom
  by_cases h : r = r'
  · subst h
    simp [alookup_aset_self]
  · rw [if_neg h]
    exact alookup_aset_ne s.roomMembers _ (fun hh => h hh.symm)

/-- Lookup of the room-member map after `leaveRoom` (nonempty room name,
duplicate-free directory keys). -/
theorem alookup_leaveRoom (s : State) (i : Nat) {r : String} (hr : r ≠ "")
    (hnd : (akeys s.roomMembers).Nodup) (r' : String) :
    alookup (leaveRoom s i r).roomMembers r' =
      if r = r' then
        (match alookup s.roomMembers r with
         | none => none
         | some l => if l.erase i = [] then none else some (l.erase i))
      else alookup s.roomMembers r' := by
  unfold leaveRoom
  rw [if_neg hr]
  cases h : alookup s.roomMembers r with
  | none =>
    by_cases h' : r = r'
    · subst h'
      simp [h]
    · simp [h']
  | some l =>
    dsimp only
    by_cases he : l.erase i = []
    · rw [if_pos he]
      by_cases h' : r = r'
      · subst h'
        rw [if_pos rfl, if_pos he, alookup_adel_self hnd]
      · rw [if_neg h']
        exact alookup_adel_ne s.roomMembers (fun hh => h' hh.symm)
    · rw [if_neg he]
      by_cases h' : r = r'
      · subst h'
        rw [if_pos rfl, if_neg he, alookup_aset_self]
      · rw [if_neg h']
        exact alookup_aset_ne s.roomMembers _ (fun hh => h' hh.symm)

theorem onTyping_fst (s : State) (i : Nat) (v : JSVal) : (onTyping s i v).1 = s := by
  unfold onTyping
  repeat' split
  all_goals rfl

theorem setAdd_nodup {l : List Nat} (h : l.Nodup) (i : Nat) : (setAdd l i).Nodup := by
  unfold setAdd
  split
  · exact h
  · next hni =>
    refine List.Nodup.append h (List.nodup_singleton i) ?_
    intro x hx hmem
    simp only [List.mem_singleton] at hmem
    subst hmem
    exact hni hx

theorem mem_setAdd {l : List Nat} {i j : Nat} :
    j ∈ setAdd l i ↔ j ∈ l ∨ j = i := by
  unfold setAdd
  split
  · constructor
    · exact Or.inl
    · rintro (hj | rfl)
      · exact hj
      · assumption
  · simp

/-! ### Facts about string coercion and the room-name normalizer -/

theorem toDigitsCore_length_le (b : Nat) (fuel n : Nat) (ds : List Char) :
    ds.length ≤ (Nat.toDigitsCore b fuel n ds).length := by
  induction fuel generalizing n ds with
  | zero => simp [Nat.toDigitsCore]
  | succ f ih =>
    simp only [Nat.toDigitsCore]
    by_cases h : n / b = 0
    · simp [h]
    · rw [if_neg h]
      exact le_trans (by simp) (ih (n / b) (Nat.digitChar (n % b) :: ds))

theorem toDigits_ne_nil (b n : Nat) : Nat.toDigits b n ≠ [] := by
  intro hcon
  have h1 : (1 : Nat) ≤ (Nat.toDigits b n).length := by
    show 1 ≤ (Nat.toDigitsCore b (n + 1) n []).length
    simp only [Nat.toDigitsCore]
    by_cases h : n / b = 0
    · simp [h]
    · rw [if_neg h]
      exact le_trans (by simp) (toDigitsCore_length_le b n (n / b) _)
  rw [hcon] at h1
  simp at h1

theorem toString_nat_data_ne_nil (n : Nat) : (toString n : String).data ≠ [] := by
  show ((Nat.toDigits 10 n).asString).data ≠ []
  exact toDigits_ne_nil 10 n

theorem toString_int_data_ne_nil (n : Int) : (toString n : String).data ≠ [] := by
  cases n with
  | ofNat m => exact toString_nat_data_ne_nil m
  | negSucc m =>
    show (("-" ++ Nat.repr (m + 1)) : String).data ≠ []
    simp [String.data_append]

theorem truthy_jsToString_data_ne_nil {v : JSVal} (h : truthy v = true) :
    (jsToString v).data ≠ [] := by
  cases v with
  | vNull => simp [truthy] at h
  | vUndef => simp [truthy] at h
  | vBool b =>
    cases b with
    | true => simp [jsToString]
    | false => simp [truthy] at h
  | vNum n => exact toString_int_data_ne_nil n
  | vStr s =>
    simp only [truthy, bne_iff_ne, ne_eq, decide_eq_true_eq] at h
    intro hd
    exact h (by cases s with | mk d => cases hd; rfl)

theorem strTake_length_le (s : String) (n : Nat) : (strTake s n).length ≤ n := by
  show (s.data.take n).length ≤ n
  simp [List.length_take]

theorem strTake_ne_empty {s : String} (hs : s.data ≠ []) {n : Nat} (hn : 0 < n) :
    strTake s n ≠ "" := by
  intro hcon
  have : (strTake s n).data = [] := by rw [hcon]
  rw [show (strTake s n).data = s.data.take n from rfl, List.take_eq_nil_iff] at this
  rcases this with h | h
  · omega
  · exact hs h

theorem safeRoom_ne_empty (v : JSVal) : safeRoom v ≠ "" := by
  unfold safeRoom jsOr
  by_cases h : truthy v = true
  · rw [if_pos h]
    exact strTake_ne_empty (truthy_jsToString_data_ne_nil h) (by omega)
  · rw [if_neg h]
    decide

theorem safeRoom_length_le (v : JSVal) : (safeRoom v).length ≤ 50 :=
  strTake_length_le _ 50

/-! ### Invariants of reachable states

`RoomInv` ties the Room Directory to the per-connection `currentRoom`
variables; `PairInv` governs the Waiting Pool and the pairing links. -/

structure RoomInv (s : State) : Prop where
  connsNodup : (akeys s.conns).Nodup
  roomsNodup : (akeys s.roomMembers).Nodup
  currentRoomNe : ∀ i c, getConn s i = some c → c.currentRoom ≠ some ""
  memberSound : ∀ r l, alookup s.roomMembers r = some l →
    l ≠ [] ∧ l.Nodup ∧
    ∀ j, j ∈ l → ∃ c, getConn s j = some c ∧ c.connected = true ∧ c.currentRoom = some r
  roomComplete : ∀ j c r, getConn s j = some c → c.connected = true →
    c.currentRoom = some r → ∃ l, alookup s.roomMembers r = some l ∧ j ∈ l

structure PairInv (s : State) : Prop where
  connsNodup : (akeys s.conns).Nodup
  queueNodup : s.waitingQueue.Nodup
  queueLen : s.waitingQueue.length ≤ 1
  queueSound : ∀ i, i ∈ s.waitingQueue → ∃ c, getConn s i = some c ∧ c.connected = true ∧
    c.strangerRoom = none ∧ c.partnerId = none
  pairBoth : ∀ i c, getConn s i = some c → (c.strangerRoom = none ↔ c.partnerId = none)
  closedClean : ∀ i c, getConn s i = some c → c.connected = false →
    c.strangerRoom = none ∧ c.partnerId = none
  pairSym : ∀ i c r p, getConn s i = some c → c.strangerRoom = some r →
    c.partnerId = some p →
    c.connected = true ∧ ∃ pc, getConn s p = some pc ∧ pc.connected = true ∧
      pc.strangerRoom = some r ∧ pc.partnerId = some i
  pairFresh : ∀ i c r, getConn s i = some c → c.strangerRoom = some r → r < s.nextId
  pairUnique : ∀ i j ci cj r, getConn s i = some ci → getConn s j = some cj →
    ci.strangerRoom = some r → cj.strangerRoom = some r →
    i = j ∨ (ci.partnerId = some j ∧ cj.partnerId = some i)

theorem roomInv_init : RoomInv initState where
  connsNodup := List.nodup_nil
  roomsNodup := List.nodup_nil
  currentRoomNe := fun _ _ h => Option.noConfusion h
  memberSound := fun _ _ h => Option.noConfusion h
  roomComplete := fun _ _ _ h => Option.noConfusion h

theorem pairInv_init : PairInv initState where
  connsNodup := List.nodup_nil
  queueNodup := List.nodup_nil
  queueLen := by simp [initState]
  queueSound := by intro i h; simp [initState] at h
  pairBoth := fun _ _ h => Option.noConfusion h
  closedClean := fun _ _ h => Option.noConfusion h
  pairSym := fun _ _ _ _ h => Option.noConfusion h
  pairFresh := fun _ _ _ h => Option.noConfusion h
  pairUnique := fun _ _ _ _ _ h => Option.noConfusion h

/-- From agreement of a projection of two optional connection records,
transport a `some`-fact from one side to the other. -/
theorem map_proj_some {β : Type} {f : Conn → β} {o o' : Option Conn}
    (h : o'.map f = o.map f) {c : Conn} (hc : o' = some c) :
    ∃ c₀, o = some c₀ ∧ f c₀ = f c := by
  subst hc
  cases o with
  | none => simp at h
  | some c₀ => exact ⟨c₀, rfl, by simpa using h.symm⟩

/-- `RoomInv` only inspects the room directory and the `(currentRoom,
connected)` fields of connection records. -/
theorem roomInv_transfer {s s' : State} (h : RoomInv s)
    (hnd : (akeys s'.conns).Nodup)
    (hrm : s'.roomMembers = s.roomMembers)
    (hc : ∀ j, (getConn s' j).map (fun c => (c.currentRoom, c.connected)) =
               (getConn s j).map (fun c => (c.currentRoom, c.connected))) :
    RoomInv s' where
  connsNodup := hnd
  roomsNodup := hrm ▸ h.roomsNodup
  currentRoomNe := by
    intro i c hget hcr
    obtain ⟨c₀, hg0, hf⟩ := map_proj_some (hc i) hget
    have h1 : c₀.currentRoom = c.currentRoom := congrArg Prod.fst hf
    exact h.currentRoomNe i c₀ hg0 (h1 ▸ hcr)
  memberSound := by
    intro r l hrl
    rw [hrm] at hrl
    obtain ⟨hne, hnd', hmem⟩ := h.memberSound r l hrl
    refine ⟨hne, hnd', ?_⟩
    intro j hj
    obtain ⟨c, hcg, hcc, hcr⟩ := hmem j hj
    obtain ⟨c', hg', hf⟩ := map_proj_some (hc j).symm hcg
    refine ⟨c', hg', ?_, ?_⟩
    · have := congrArg Prod.snd hf
      simpa [hcc] using this
    · have := congrArg Prod.fst hf
      simpa [hcr] using this
  roomComplete := by
    intro j c r hget hconn hcr
    obtain ⟨c₀, hg0, hf⟩ := map_proj_some (hc j) hget
    have h1 : c₀.currentRoom = c.currentRoom := congrArg Prod.fst hf
    have h2 : c₀.connected = c.connected := congrArg Prod.snd hf
    obtain ⟨l, hl, hjl⟩ := h.roomComplete j c₀ r hg0 (h2 ▸ hconn) (h1 ▸ hcr)
    exact ⟨l, hrm ▸ hl, hjl⟩

/-- `PairInv` only inspects the waiting queue, the fresh-id counter and the
`(strangerRoom, partnerId, connected)` fields of connection records. -/
theorem pairInv_transfer {s s' : State} (h : PairInv s)
    (hnd : (akeys s'.conns).Nodup)
    (hq : s'.waitingQueue = s.waitingQueue)
    (hn : s.nextId ≤ s'.nextId)
    (hc : ∀ j, (getConn s' j).map (fun c => (c.strangerRoom, c.partnerId, c.connected)) =
               (getConn s j).map (fun c => (c.strangerRoom, c.partnerId, c.connected))) :
    PairInv s' where
  connsNodup := hnd
  queueNodup := hq ▸ h.queueNodup
  queueLen := hq ▸ h.queueLen
  queueSound := by
    intro i hi
    rw [hq] at hi
    obtain ⟨c, hcg, hcc, hsr, hpid⟩ := h.queueSound i hi
    obtain ⟨c', hg', hf⟩ := map_proj_some (hc i).symm hcg
    have h1 : c'.strangerRoom = c.strangerRoom := congrArg Prod.fst hf
    have h2 : c'.partnerId = c.partnerId := congrArg (fun x => x.2.1) hf
    have h3 : c'.connected = c.connected := congrArg (fun x => x.2.2) hf
    exact ⟨c', hg', by rw [h3, hcc], by rw [h1, hsr], by rw [h2, hpid]⟩
  pairBoth := by
    intro i c hget
    obtain ⟨c₀, hg0, hf⟩ := map_proj_some (hc i) hget
    have h1 : c₀.strangerRoom = c.strangerRoom := congrArg Prod.fst hf
    have h2 : c₀.partnerId = c.partnerId := congrArg (fun x => x.2.1) hf
    rw [← h1, ← h2]
    exact h.pairBoth i c₀ hg0
  closedClean := by
    intro i c hget hconn
    obtain ⟨c₀, hg0, hf⟩ := map_proj_some (hc i) hget
    have h1 : c₀.strangerRoom = c.strangerRoom := congrArg Prod.fst hf
    have h2 : c₀.partnerId = c.partnerId := congrArg (fun x => x.2.1) hf
    have h3 : c₀.connected = c.connected := congrArg (fun x => x.2.2) hf
    obtain ⟨hsr, hpid⟩ := h.closedClean i c₀ hg0 (h3 ▸ hconn)
    exact ⟨h1 ▸ hsr, h2 ▸ hpid⟩
  pairSym := by
    intro i c r p hget hsr hpid
    obtain ⟨c₀, hg0, hf⟩ := map_proj_some (hc i) hget
    have h1 : c₀.strangerRoom = c.strangerRoom := congrArg Prod.fst hf
    have h2 : c₀.partnerId = c.partnerId := congrArg (fun x => x.2.1) hf
    have h3 : c₀.connected = c.connected := congrArg (fun x => x.2.2) hf
    obtain ⟨hcc, pc, hpg, hpc, hpr, hpp⟩ :=
      h.pairSym i c₀ r p hg0 (h1 ▸ hsr) (h2 ▸ hpid)
    refine ⟨h3 ▸ hcc, ?_⟩
    obtain ⟨pc', hpg', hpf⟩ := map_proj_some (hc p).symm hpg
    have g1 : pc'.strangerRoom = pc.strangerRoom := congrArg Prod.fst hpf
    have g2 : pc'.partnerId = pc.partnerId := congrArg (fun x => x.2.1) hpf
    have g3 : pc'.connected = pc.connected := congrArg (fun x => x.2.2) hpf
    exact ⟨pc', hpg', by rw [g3, hpc], by rw [g1, hpr], by rw [g2, hpp]⟩
  pairFresh := by
    intro i c r hget hsr
    obtain ⟨c₀, hg0, hf⟩ := map_proj_some (hc i) hget
    have h1 : c₀.strangerRoom = c.strangerRoom := congrArg Prod.fst hf
    exact lt_of_lt_of_le (h.pairFresh i c₀ r hg0 (h1 ▸ hsr)) hn
  pairUnique := by
    intro i j ci cj r hgi hgj hsi hsj
    obtain ⟨ci₀, hgi0, hfi⟩ := map_proj_some (hc i) hgi
    obtain ⟨cj₀, hgj0, hfj⟩ := map_proj_some (hc j) hgj
    have hi1 : ci₀.strangerRoom = ci.strangerRoom := congrArg Prod.fst hfi
    have hi2 : ci₀.partnerId = ci.partnerId := congrArg (fun x => x.2.1) hfi
    have hj1 : cj₀.strangerRoom = cj.strangerRoom := congrArg Prod.fst hfj
    have hj2 : cj₀.partnerId = cj.partnerId := congrArg (fun x => x.2.1) hfj
    rcases h.pairUnique i j ci₀ cj₀ r hgi0 hgj0 (hi1 ▸ hsi) (hj1 ▸ hsj) with hij | ⟨hp1, hp2⟩
    · exact Or.inl hij
    · exact Or.inr ⟨hi2 ▸ hp1, hj2 ▸ hp2⟩

theorem getConn_inj {s : State} {j : Nat} {c c' : Conn}
    (h1 : getConn s j = some c) (h2 : getConn s j = some c') : c = c' := by
  rw [h1] at h2
  exact Option.some.inj h2

/-! ### Behaviour of `handleStrangerLeave` (exact equations, by case) -/

theorem hsl_noConn (s : State) (i : Nat) (h : getConn s i = none) :
    handleStrangerLeave s i = (s, []) := by
  unfold handleStrangerLeave
  simp only [h]

theorem hsl_none (s : State) (i : Nat) (c : Conn) (h : getConn s i = some c)
    (hr : c.strangerRoom = none) : handleStrangerLeave s i = (s, []) := by
  unfold handleStrangerLeave
  simp only [h, hr]

/-- Teardown when the partner is a distinct, still-registered socket: both
sides' pairing state is cleared, the leaver is told `youDisconnected`, the
partner is told `strangerLeft`. -/
theorem hsl_partner (s : State) {i : Nat} {c : Conn} {r : Nat} {p : Nat} {pc : Conn}
    (h : getConn s i = some c) (hr : c.strangerRoom = some r)
    (hp : c.partnerId = some p) (hpi : p ≠ i) (hlp : getLive s p = some pc) :
    handleStrangerLeave s i =
      (setConn (setConn s p (clearPair pc)) i (clearPair c),
       [(Target.sock i, Ev.youDisconnected), (Target.sock p, Ev.strangerLeft)]) := by
  unfold handleStrangerLeave
  simp only [h, hr, hp, hlp]
  rw [getConn_setConn_ne _ _ (Ne.symm hpi)]
  simp only [h]
  rfl

/-- Teardown of a self-pairing while the socket is still registered. -/
theorem hsl_self (s : State) {i : Nat} {c : Conn} {r : Nat}
    (h : getConn s i = some c) (hr : c.strangerRoom = some r)
    (hp : c.partnerId = some i) (hlv : getLive s i = some c) :
    handleStrangerLeave s i =
      (setConn s i (clearPair c),
       [(Target.sock i, Ev.youDisconnected), (Target.sock i, Ev.strangerLeft)]) := by
  unfold handleStrangerLeave
  simp only [h, hr, hp, hlv]
  rw [getConn_setConn_self]
  unfold setConn
  simp only [aset_aset]
  rfl

/-- Teardown when the partner reference is empty or no longer resolves to a
registered socket: only the leaver's own state is cleared. -/
theorem hsl_gone (s : State) {i : Nat} {c : Conn} {r : Nat}
    (h : getConn s i = some c) (hr : c.strangerRoom = some r)
    (hcase : c.partnerId = none ∨ ∃ p, c.partnerId = some p ∧ getLive s p = none) :
    handleStrangerLeave s i =
      (setConn s i (clearPair c),
       [(Target.sock i, Ev.youDisconnected)]) := by
  unfold handleStrangerLeave
  rcases hcase with hp | ⟨p, hp, hlp⟩
  · simp only [h, hr, hp]
    rfl
  · simp only [h, hr, hp, hlp]
    rfl

end Chat

namespace Chat

/-! ### PairInv preservation building blocks -/

/-- Clearing the pairing state of both members of a mutual pairing link
preserves `PairInv` (the leaver's `connected` flag may also drop). -/
theorem pairInv_clear_both {s s' : State} (h : PairInv s) {i p : Nat} {ci cp : Conn}
    {r : Nat} (bi : Bool)
    (hgi : getConn s i = some ci) (hgp : getConn s p = some cp) (hip : i ≠ p)
    (hsr : ci.strangerRoom = some r) (hpd : ci.partnerId = some p)
    (hpsr : cp.strangerRoom = some r) (hppd : cp.partnerId = some i)
    (hnd' : (akeys s'.conns).Nodup)
    (hq' : s'.waitingQueue.Sublist s.waitingQueue)
    (hn' : s.nextId ≤ s'.nextId)
    (hci' : getConn s' i = some { clearPair ci with connected := bi })
    (hcp' : getConn s' p = some (clearPair cp))
    (hother : ∀ j, j ≠ i → j ≠ p → getConn s' j = getConn s j) :
    PairInv s' where
  connsNodup := hnd'
  queueNodup := h.queueNodup.sublist hq'
  queueLen := le_trans hq'.length_le h.queueLen
  queueSound := by
    intro j hj
    have hjs := hq'.subset hj
    obtain ⟨c, hcg, hcc, hcs, hcp2⟩ := h.queueSound j hjs
    have hjne : j ≠ i := by
      rintro rfl
      have hce : c = ci := getConn_inj hcg hgi
      rw [hce, hsr] at hcs
      exact Option.noConfusion hcs
    have hjnp : j ≠ p := by
      rintro rfl
      have hce : c = cp := getConn_inj hcg hgp
      rw [hce, hpsr] at hcs
      exact Option.noConfusion hcs
    exact ⟨c, (hother j hjne hjnp).trans hcg, hcc, hcs, hcp2⟩
  pairBoth := by
    intro j c hget
    by_cases hji : j = i
    · subst hji
      rw [getConn_inj hget hci']
      simp
    · by_cases hjp : j = p
      · subst hjp
        rw [getConn_inj hget hcp']
        simp
      · exact h.pairBoth j c ((hother j hji hjp).symm.trans hget)
  closedClean := by
    intro j c hget hconn
    by_cases hji : j = i
    · subst hji
      rw [getConn_inj hget hci']
      simp
    · by_cases hjp : j = p
      · subst hjp
        rw [getConn_inj hget hcp']
        simp
      · exact h.closedClean j c ((hother j hji hjp).symm.trans hget) hconn
  pairSym := by
    intro j c r' q hget hsr' hpd'
    by_cases hji : j = i
    · subst hji
      rw [getConn_inj hget hci'] at hsr'
      simp at hsr'
    · by_cases hjp : j = p
      · subst hjp
        rw [getConn_inj hget hcp'] at hsr'
        simp at hsr'
      · have hgs : getConn s j = some c := (hother j hji hjp).symm.trans hget
        obtain ⟨hcc, qc, hqg, hqc, hqr, hqp⟩ := h.pairSym j c r' q hgs hsr' hpd'
        have hqni : q ≠ i := by
          rintro rfl
          have hqe : qc = ci := getConn_inj hqg hgi
          rw [hqe, hpd] at hqp
          exact hjp (Option.some.inj hqp).symm
        have hqnp : q ≠ p := by
          rintro rfl
          have hqe : qc = cp := getConn_inj hqg hgp
          rw [hqe, hppd] at hqp
          exact hji (Option.some.inj hqp).symm
        exact ⟨hcc, qc, (hother q hqni hqnp).trans hqg, hqc, hqr, hqp⟩
  pairFresh := by
    intro j c r' hget hsr'
    by_cases hji : j = i
    · subst hji
      rw [getConn_inj hget hci'] at hsr'
      simp at hsr'
    · by_cases hjp : j = p
      · subst hjp
        rw [getConn_inj hget hcp'] at hsr'
        simp at hsr'
      · exact lt_of_lt_of_le
          (h.pairFresh j c r' ((hother j hji hjp).symm.trans hget) hsr') hn'
  pairUnique := by
    intro j k cj ck r' hgj hgk hsj hsk
    by_cases hji : j = i
    · subst hji
      rw [getConn_inj hgj hci'] at hsj
      simp at hsj
    · by_cases hjp : j = p
      · subst hjp
        rw [getConn_inj hgj hcp'] at hsj
        simp at hsj
      · by_cases hki : k = i
        · subst hki
          rw [getConn_inj hgk hci'] at hsk
          simp at hsk
        · by_cases hkp : k = p
          · subst hkp
            rw [getConn_inj hgk hcp'] at hsk
            simp at hsk
          · exact h.pairUnique j k cj ck r' ((hother j hji hjp).symm.trans hgj)
              ((hother k hki hkp).symm.trans hgk) hsj hsk

/-- Clearing the pairing state of a connection that is unpaired or
self-paired preserves `PairInv`. -/
theorem pairInv_clear_one {s s' : State} (h : PairInv s) {i : Nat} {ci : Conn} (bi : Bool)
    (hgi : getConn s i = some ci)
    (hself : ci.partnerId = none ∨ ci.partnerId = some i)
    (hnd' : (akeys s'.conns).Nodup)
    (hq' : s'.waitingQueue.Sublist s.waitingQueue)
    (hiq : bi = false → i ∉ s'.waitingQueue)
    (hn' : s.nextId ≤ s'.nextId)
    (hci' : getConn s' i = some { clearPair ci with connected := bi })
    (hother : ∀ j, j ≠ i → getConn s' j = getConn s j) :
    PairInv s' where
  connsNodup := hnd'
  queueNodup := h.queueNodup.sublist hq'
  queueLen := le_trans hq'.length_le h.queueLen
  queueSound := by
    intro j hj
    have hjs := hq'.subset hj
    obtain ⟨c, hcg, hcc, hcs, hcp2⟩ := h.queueSound j hjs
    by_cases hji : j = i
    · subst hji
      cases bi with
      | true => exact ⟨_, hci', rfl, rfl, rfl⟩
      | false => exact absurd hj (hiq rfl)
    · exact ⟨c, (hother j hji).trans hcg, hcc, hcs, hcp2⟩
  pairBoth := by
    intro j c hget
    by_cases hji : j = i
    · subst hji
      rw [getConn_inj hget hci']
      simp
    · exact h.pairBoth j c ((hother j hji).symm.trans hget)
  closedClean := by
    intro j c hget hconn
    by_cases hji : j = i
    · subst hji
      rw [getConn_inj hget hci']
      simp
    · exact h.closedClean j c ((hother j hji).symm.trans hget) hconn
  pairSym := by
    intro j c r' q hget hsr' hpd'
    by_cases hji : j = i
    · subst hji
      rw [getConn_inj hget hci'] at hsr'
      simp at hsr'
    · have hgs : getConn s j = some c := (hother j hji).symm.trans hget
      obtain ⟨hcc, qc, hqg, hqc, hqr, hqp⟩ := h.pairSym j c r' q hgs hsr' hpd'
      have hqni : q ≠ i := by
        rintro rfl
        have hqe : qc = ci := getConn_inj hqg hgi
        rcases hself with hs0 | hs0 <;> rw [hqe, hs0] at hqp
        · exact Option.noConfusion hqp
        · exact hji (Option.some.inj hqp).symm
      exact ⟨hcc, qc, (hother q hqni).trans hqg, hqc, hqr, hqp⟩
  pairFresh := by
    intro j c r' hget hsr'
    by_cases hji : j = i
    · subst hji
      rw [getConn_inj hget hci'] at hsr'
      simp at hsr'
    · exact lt_of_lt_of_le (h.pairFresh j c r' ((hother j hji).symm.trans hget) hsr') hn'
  pairUnique := by
    intro j k cj ck r' hgj hgk hsj hsk
    by_cases hji : j = i
    · subst hji
      rw [getConn_inj hgj hci'] at hsj
      simp at hsj
    · by_cases hki : k = i
      · subst hki
        rw [getConn_inj hgk hci'] at hsk
        simp at hsk
      · exact h.pairUnique j k cj ck r' ((hother j hji).symm.trans hgj)
          ((hother k hki).symm.trans hgk) hsj hsk

/-- Binding a fresh mutual pairing link between two unpaired, connected
sockets — with the fresh channel id drawn from the counter — preserves
`PairInv`.  Covers the degenerate self-pairing case `p = i`. -/
theorem pairInv_make_pair {s s' : State} (h : PairInv s) {i p : Nat} {ci cp : Conn}
    (hgi : getConn s i = some ci) (hgp : getConn s p = some cp)
    (hcic : ci.connected = true) (hcpc : cp.connected = true)
    (hsi : ci.strangerRoom = none) (hsp : cp.strangerRoom = none)
    (hpi : ci.partnerId = none) (hpp : cp.partnerId = none)
    (hnd' : (akeys s'.conns).Nodup)
    (hq' : s'.waitingQueue = [])
    (hn' : s'.nextId = s.nextId + 1)
    (hci' : getConn s' i = some (bindPair ci s.nextId p))
    (hcp' : getConn s' p = some (bindPair cp s.nextId i))
    (hother : ∀ j, j ≠ i → j ≠ p → getConn s' j = getConn s j) :
    PairInv s' where
  connsNodup := hnd'
  queueNodup := by rw [hq']; exact List.nodup_nil
  queueLen := by rw [hq']; simp
  queueSound := by
    intro j hj
    rw [hq'] at hj
    simp at hj
  pairBoth := by
    intro j c hget
    by_cases hji : j = i
    · subst hji
      rw [getConn_inj hget hci']
      simp
    · by_cases hjp : j = p
      · subst hjp
        rw [getConn_inj hget hcp']
        simp
      · exact h.pairBoth j c ((hother j hji hjp).symm.trans hget)
  closedClean := by
    intro j c hget hconn
    by_cases hji : j = i
    · subst hji
      rw [getConn_inj hget hci'] at hconn
      simp [hcic] at hconn
    · by_cases hjp : j = p
      · subst hjp
        rw [getConn_inj hget hcp'] at hconn
        simp [hcpc] at hconn
      · exact h.closedClean j c ((hother j hji hjp).symm.trans hget) hconn
  pairSym := by
    intro j c r' q hget hsr' hpd'
    by_cases hji : j = i
    · subst hji
      have hce := getConn_inj hget hci'
      rw [hce] at hsr' hpd'
      simp only [bindPair_strangerRoom, bindPair_partnerId, Option.some.injEq] at hsr' hpd'
      subst hsr'
      subst hpd'
      refine ⟨by rw [hce]; exact hcic, _, hcp', hcpc, rfl, rfl⟩
    · by_cases hjp : j = p
      · subst hjp
        have hce := getConn_inj hget hcp'
        rw [hce] at hsr' hpd'
        simp only [bindPair_strangerRoom, bindPair_partnerId, Option.some.injEq] at hsr' hpd'
        subst hsr'
        subst hpd'
        refine ⟨by rw [hce]; exact hcpc, _, hci', hcic, rfl, rfl⟩
      · have hgs : getConn s j = some c := (hother j hji hjp).symm.trans hget
        obtain ⟨hcc, qc, hqg, hqc, hqr, hqp⟩ := h.pairSym j c r' q hgs hsr' hpd'
        have hqni : q ≠ i := by
          rintro rfl
          have hqe : qc = ci := getConn_inj hqg hgi
          rw [hqe, hpi] at hqp
          exact Option.noConfusion hqp
        have hqnp : q ≠ p := by
          rintro rfl
          have hqe : qc = cp := getConn_inj hqg hgp
          rw [hqe, hpp] at hqp
          exact Option.noConfusion hqp
        exact ⟨hcc, qc, (hother q hqni hqnp).trans hqg, hqc, hqr, hqp⟩
  pairFresh := by
    intro j c r' hget hsr'
    by_cases hji : j = i
    · subst hji
      rw [getConn_inj hget hci'] at hsr'
      simp only [bindPair_strangerRoom, Option.some.injEq] at hsr'
      subst hsr'
      rw [hn']
      omega
    · by_cases hjp : j = p
      · subst hjp
        rw [getConn_inj hget hcp'] at hsr'
        simp only [bindPair_strangerRoom, Option.some.injEq] at hsr'
        subst hsr'
        rw [hn']
        omega
      · have := h.pairFresh j c r' ((hother j hji hjp).symm.trans hget) hsr'
        rw [hn']
        omega
  pairUnique := by
    intro j k cj ck r' hgj hgk hsj hsk
    by_cases hji : j = i
    · have hje : cj = bindPair ci s.nextId p := by
        rw [hji] at hgj
        exact getConn_inj hgj hci'
      have hr' : s.nextId = r' := by
        rw [hje] at hsj
        simpa using hsj
      by_cases hki : k = i
      · exact Or.inl (hji.trans hki.symm)
      · by_cases hkp : k = p
        · have hke : ck = bindPair cp s.nextId i := by
            rw [hkp] at hgk
            exact getConn_inj hgk hcp'
          refine Or.inr ⟨?_, ?_⟩
          · rw [hje, bindPair_partnerId, hkp]
          · rw [hke, bindPair_partnerId, hji]
        · have hgs : getConn s k = some ck := (hother k hki hkp).symm.trans hgk
          have := h.pairFresh k ck r' hgs hsk
          omega
    · by_cases hjp : j = p
      · have hje : cj = bindPair cp s.nextId i := by
          rw [hjp] at hgj
          exact getConn_inj hgj hcp'
        have hr' : s.nextId = r' := by
          rw [hje] at hsj
          simpa using hsj
        by_cases hkp : k = p
        · exact Or.inl (hjp.trans hkp.symm)
        · by_cases hki : k = i
          · have hke : ck = bindPair ci s.nextId p := by
              rw [hki] at hgk
              exact getConn_inj hgk hci'
            refine Or.inr ⟨?_, ?_⟩
            · rw [hje, bindPair_partnerId, hki]
            · rw [hke, bindPair_partnerId, hjp]
          · have hgs : getConn s k = some ck := (hother k hki hkp).symm.trans hgk
            have := h.pairFresh k ck r' hgs hsk
            omega
      · have hgsj : getConn s j = some cj := (hother j hji hjp).symm.trans hgj
        by_cases hki : k = i
        · have hke : ck = bindPair ci s.nextId p := by
            rw [hki] at hgk
            exact getConn_inj hgk hci'
          have hr' : s.nextId = r' := by
            rw [hke] at hsk
            simpa using hsk
          have := h.pairFresh j cj r' hgsj hsj
          omega
        · by_cases hkp : k = p
          · have hke : ck = bindPair cp s.nextId i := by
              rw [hkp] at hgk
              exact getConn_inj hgk hcp'
            have hr' : s.nextId = r' := by
              rw [hke] at hsk
              simpa using hsk
            have := h.pairFresh j cj r' hgsj hsj
            omega
          · exact h.pairUnique j k cj ck r' hgsj
              ((hother k hki hkp).symm.trans hgk) hsj hsk

end Chat

namespace Chat

/-! ### PairInv preservation, per handler -/

/-- Tearing down an active link preserves `PairInv`, clears the leaver's
pairing state, and leaves the queue and the counter alone. -/
theorem hsl_post {s : State} (h : PairInv s) {i : Nat} {c : Conn} {r : Nat}
    (hg : getConn s i = some c) (hr : c.strangerRoom = some r) :
    PairInv (handleStrangerLeave s i).1
    ∧ getConn (handleStrangerLeave s i).1 i = some (clearPair c)
    ∧ (handleStrangerLeave s i).1.waitingQueue = s.waitingQueue
    ∧ (handleStrangerLeave s i).1.nextId = s.nextId
    ∧ (∀ j, j ≠ i → (getConn (handleStrangerLeave s i).1 j).map
        (fun c => (c.username, c.currentRoom, c.connected)) =
        (getConn s j).map (fun c => (c.username, c.currentRoom, c.connected)))
    ∧ (handleStrangerLeave s i).1.roomMembers = s.roomMembers
    ∧ (akeys (handleStrangerLeave s i).1.conns).Nodup := by
  cases hp : c.partnerId with
  | none =>
    have := (h.pairBoth i c hg).mpr hp
    rw [hr] at this
    exact Option.noConfusion this
  | some p =>
    obtain ⟨hcc, pc, hgp, hpcc, hpsr, hppd⟩ := h.pairSym i c r p hg hr hp
    have hcrec : ({ clearPair c with connected := true } : Conn) = clearPair c := by
      cases c
      cases hcc
      rfl
    by_cases hpi : p = i
    · -- self-pairing teardown
      have hpid : c.partnerId = some i := by rw [hp, hpi]
      have hlv : getLive s i = some c := getLive_eq_some.mpr ⟨hg, hcc⟩
      rw [hsl_self s hg hr hpid hlv]
      refine ⟨?_, getConn_setConn_self s i (clearPair c), rfl, rfl, ?_, rfl, ?_⟩
      · refine pairInv_clear_one h true hg (Or.inr hpid) ?_ (List.Sublist.refl _) ?_
          (le_refl _) ?_ ?_
        · exact akeys_aset_nodup h.connsNodup i (clearPair c)
        · intro hbi
          exact absurd hbi (by decide)
        · rw [getConn_setConn_self]
          rw [hcrec]
        · intro j hji
          exact getConn_setConn_ne s (clearPair c) hji
      · intro j hji
        rw [getConn_setConn_ne s (clearPair c) hji]
      · exact akeys_aset_nodup h.connsNodup i (clearPair c)
    · -- distinct partner, still registered
      have hlp : getLive s p = some pc := getLive_eq_some.mpr ⟨hgp, hpcc⟩
      rw [hsl_partner s hg hr hp hpi hlp]
      have hgi' : getConn (setConn (setConn s p (clearPair pc)) i (clearPair c)) i =
          some (clearPair c) := getConn_setConn_self _ i (clearPair c)
      refine ⟨?_, hgi', rfl, rfl, ?_, rfl, ?_⟩
      · refine pairInv_clear_both h true hg hgp (Ne.symm hpi) hr hp hpsr hppd ?_
          (List.Sublist.refl _) (le_refl _) ?_ ?_ ?_
        · exact akeys_aset_nodup (akeys_aset_nodup h.connsNodup p (clearPair pc)) i
            (clearPair c)
        · dsimp only
          rw [hgi', hcrec]
        · dsimp only
          rw [getConn_setConn_ne _ (clearPair c) hpi, getConn_setConn_self]
        · intro j hji hjp
          dsimp only
          rw [getConn_setConn_ne _ (clearPair c) hji, getConn_setConn_ne _ (clearPair pc) hjp]
      · intro j hji
        rw [getConn_setConn_ne _ (clearPair c) hji]
        by_cases hjp : j = p
        · subst hjp
          rw [getConn_setConn_self, hgp]
          rfl
        · rw [getConn_setConn_ne _ (clearPair pc) hjp]
      · exact akeys_aset_nodup (akeys_aset_nodup h.connsNodup p (clearPair pc)) i
          (clearPair c)

/-- The pool-matching core of `findStranger`, run for an unpaired connected
socket, preserves `PairInv`. -/
theorem pairInv_findCore {s : State} (h : PairInv s) {i : Nat} {ci : Conn}
    (hgi : getConn s i = some ci) (hcic : ci.connected = true)
    (hsr : ci.strangerRoom = none) :
    PairInv (findCore s i).1 := by
  have hpid : ci.partnerId = none := (h.pairBoth i ci hgi).mp hsr
  cases hq : s.waitingQueue with
  | nil =>
    have heq : (findCore s i).1 = { s with waitingQueue := setAdd s.waitingQueue i } := by
      unfold findCore
      rw [hq]
    rw [heq, hq]
    exact {
      connsNodup := h.connsNodup
      queueNodup := by simp [setAdd]
      queueLen := by simp [setAdd]
      queueSound := by
        intro j hj
        simp only [setAdd, List.not_mem_nil, if_false, List.nil_append,
          List.mem_singleton] at hj
        subst hj
        exact ⟨ci, hgi, hcic, hsr, hpid⟩
      pairBoth := h.pairBoth
      closedClean := h.closedClean
      pairSym := h.pairSym
      pairFresh := h.pairFresh
      pairUnique := h.pairUnique }
  | cons p rest =>
    have hrest : rest = [] := by
      have hlen := h.queueLen
      rw [hq] at hlen
      simp only [List.length_cons] at hlen
      exact List.length_eq_zero.mp (by omega)
    subst hrest
    obtain ⟨cp, hgp, hcpc, hspc, hppc⟩ :=
      h.queueSound p (by rw [hq]; exact List.mem_cons_self _ _)
    have hlp : getLive s p = some cp := getLive_eq_some.mpr ⟨hgp, hcpc⟩
    by_cases hpi : p = i
    · -- the requester pops itself: a self-pairing is created
      have hgi2 : getConn s i = some cp := by rw [← hpi]; exact hgp
      have hspd2 : cp.partnerId = none := (h.pairBoth i cp hgi2).mp hspc
      have heq : (findCore s i).1 =
          setConn { s with waitingQueue := [], nextId := s.nextId + 1 } i
            (bindPair cp s.nextId i) := by
        unfold findCore
        rw [hq, hpi]
        simp only [getLive_set_queue, getLive_eq_some.mpr ⟨hgi2, hcpc⟩]
        rw [refetchBind_eq (getConn_setConn_self _ i _) _ _]
        unfold setConn bindPair
        simp only [aset_aset]
      rw [heq]
      refine pairInv_make_pair h hgi2 hgi2 hcpc hcpc hspc hspc hspd2 hspd2 ?_ rfl rfl
        ?_ ?_ ?_
      · exact akeys_aset_nodup h.connsNodup i (bindPair cp s.nextId i)
      · exact getConn_setConn_self _ i _
      · exact getConn_setConn_self _ i _
      · intro j hji hjp
        rw [getConn_setConn_ne _ _ hji]
        rfl
    · -- two distinct sockets are paired
      have heq : (findCore s i).1 =
          setConn (setConn { s with waitingQueue := [], nextId := s.nextId + 1 } p
            (bindPair cp s.nextId i)) i (bindPair ci s.nextId p) := by
        have hg4 : getConn (setConn { s with waitingQueue := ([] : List Nat), nextId := s.nextId + 1 } p { cp with strangerRoom := some s.nextId, partnerId := some i }) i = some ci := by
          rw [getConn_setConn_ne _ _ (Ne.symm hpi)]
          exact hgi
        unfold findCore
        rw [hq]
        simp only [getLive_set_queue, hlp]
        rw [refetchBind_eq hg4 _ _]
        rfl
      rw [heq]
      refine pairInv_make_pair h hgi hgp hcic hcpc hsr hspc hpid hppc ?_ rfl rfl
        ?_ ?_ ?_
      · exact akeys_aset_nodup (akeys_aset_nodup h.connsNodup p _) i _
      · exact getConn_setConn_self _ i _
      · rw [getConn_setConn_ne _ _ hpi]
        exact getConn_setConn_self _ p _
      · intro j hji hjp
        rw [getConn_setConn_ne _ _ hji, getConn_setConn_ne _ _ hjp]
        rfl

theorem getConn_congr {s t : State} (h : t.conns = s.conns) (j : Nat) :
    getConn t j = getConn s j := by
  unfold getConn
  rw [h]

/-- State facts for the room-switch part of the `join` handler. -/
theorem joinSet_facts (s s1 : State) (i : Nat) (c : Conn) (sr : String)
    (hg : getConn s i = some c) (hc : s1.conns = s.conns)
    (hq : s1.waitingQueue = s.waitingQueue) (hn : s1.nextId = s.nextId)
    (hm : s1.messages = s.messages) :
    (joinRoom (setConn s1 i { c with currentRoom := some sr }) i sr).waitingQueue =
      s.waitingQueue
    ∧ (joinRoom (setConn s1 i { c with currentRoom := some sr }) i sr).nextId = s.nextId
    ∧ (joinRoom (setConn s1 i { c with currentRoom := some sr }) i sr).messages = s.messages
    ∧ (∀ j, (getConn (joinRoom (setConn s1 i { c with currentRoom := some sr }) i sr) j).map
        (fun c => (c.strangerRoom, c.partnerId, c.connected)) =
        (getConn s j).map (fun c => (c.strangerRoom, c.partnerId, c.connected)))
    ∧ ((akeys s.conns).Nodup →
        (akeys (joinRoom (setConn s1 i { c with currentRoom := some sr }) i sr).conns).Nodup) := by
  refine ⟨by simp [hq], by simp [hn], by simp [hm], ?_, ?_⟩
  · intro j
    rw [show getConn (joinRoom (setConn s1 i { c with currentRoom := some sr }) i sr) j =
      getConn (setConn s1 i { c with currentRoom := some sr }) j from rfl]
    rw [getConn_setConn]
    by_cases hij : i = j
    · rw [if_pos hij, ← hij, hg]
      rfl
    · rw [if_neg hij]
      rw [getConn_congr hc j]
  · intro hnd
    rw [show (joinRoom (setConn s1 i { c with currentRoom := some sr }) i sr).conns =
      aset s1.conns i { c with currentRoom := some sr } from rfl, hc]
    exact akeys_aset_nodup hnd i _

/-- The `join` handler leaves the queue, counter, messages and the pairing
fields of every connection unchanged. -/
theorem onJoin_state (s : State) (i : Nat) (room : JSVal) :
    (onJoin s i room).1.waitingQueue = s.waitingQueue
    ∧ (onJoin s i room).1.nextId = s.nextId
    ∧ (onJoin s i room).1.messages = s.messages
    ∧ (∀ j, (getConn (onJoin s i room).1 j).map
        (fun c => (c.strangerRoom, c.partnerId, c.connected)) =
        (getConn s j).map (fun c => (c.strangerRoom, c.partnerId, c.connected)))
    ∧ ((akeys s.conns).Nodup → (akeys (onJoin s i room).1.conns).Nodup) := by
  unfold onJoin
  cases hg : getConn s i with
  | none => exact ⟨rfl, rfl, rfl, fun j => rfl, id⟩
  | some c =>
    dsimp only
    by_cases hcr : c.currentRoom = some (safeRoom room)
    · rw [if_pos hcr]
      exact ⟨rfl, rfl, rfl, fun j => rfl, id⟩
    · rw [if_neg hcr]
      rcases hcro : c.currentRoom with _ | old
      · exact joinSet_facts s s i c (safeRoom room) hg rfl rfl rfl rfl
      · dsimp only
        by_cases hold : old = ""
        · rw [if_pos hold]
          exact joinSet_facts s s i c (safeRoom room) hg rfl rfl rfl rfl
        · rw [if_neg hold]
          exact joinSet_facts s (leaveRoom s i old) i c (safeRoom room) hg
            (leaveRoom_conns s i old) (leaveRoom_queue s i old) (leaveRoom_nextId s i old)
            (leaveRoom_messages s i old)

theorem pairInv_onJoin {s : State} (h : PairInv s) (i : Nat) (room : JSVal) :
    PairInv (onJoin s i room).1 := by
  obtain ⟨h1, h2, h3, h4, h5⟩ := onJoin_state s i room
  exact pairInv_transfer h (h5 h.connsNodup) h1 (le_of_eq h2.symm) h4

theorem onChatMessage_state (s : State) (i : Nat) (text : JSVal) (t : Nat) :
    (onChatMessage s i text t).1.conns = s.conns
    ∧ (onChatMessage s i text t).1.waitingQueue = s.waitingQueue
    ∧ (onChatMessage s i text t).1.roomMembers = s.roomMembers
    ∧ s.nextId ≤ (onChatMessage s i text t).1.nextId := by
  unfold onChatMessage
  repeat' split
  all_goals exact ⟨rfl, rfl, rfl, by simp⟩

theorem pairInv_onChatMessage {s : State} (h : PairInv s) (i : Nat) (text : JSVal)
    (t : Nat) : PairInv (onChatMessage s i text t).1 := by
  obtain ⟨h1, h2, h3, h4⟩ := onChatMessage_state s i text t
  exact pairInv_transfer h (h1 ▸ h.connsNodup) h2 h4
    (fun j => by rw [getConn_congr h1 j])

theorem onStrangerMessage_state (s : State) (i : Nat) (text : JSVal) (t : Nat) :
    (onStrangerMessage s i text t).1.conns = s.conns
    ∧ (onStrangerMessage s i text t).1.waitingQueue = s.waitingQueue
    ∧ (onStrangerMessage s i text t).1.roomMembers = s.roomMembers
    ∧ s.nextId ≤ (onStrangerMessage s i text t).1.nextId := by
  unfold onStrangerMessage
  repeat' split
  all_goals exact ⟨rfl, rfl, rfl, by simp⟩

theorem pairInv_onStrangerMessage {s : State} (h : PairInv s) (i : Nat) (text : JSVal)
    (t : Nat) : PairInv (onStrangerMessage s i text t).1 := by
  obtain ⟨h1, h2, h3, h4⟩ := onStrangerMessage_state s i text t
  exact pairInv_transfer h (h1 ▸ h.connsNodup) h2 h4
    (fun j => by rw [getConn_congr h1 j])

theorem onFindStranger_fst_clean {s : State} {i : Nat} {c0 : Conn}
    (hg : getConn s i = some c0) (hr : c0.strangerRoom = none) :
    (onFindStranger s i).1 = (findCore s i).1 := by
  unfold onFindStranger
  simp only [hg, hr]

theorem onFindStranger_fst_tear {s : State} {i : Nat} {c0 : Conn} {r : Nat}
    (hg : getConn s i = some c0) (hr : c0.strangerRoom = some r) :
    (onFindStranger s i).1 = (findCore (handleStrangerLeave s i).1 i).1 := by
  unfold onFindStranger
  simp only [hg, hr]

theorem pairInv_onFindStranger {s : State} (h : PairInv s) {i : Nat} {c0 : Conn}
    (hlv : getLive s i = some c0) : PairInv (onFindStranger s i).1 := by
  obtain ⟨hg, hcon⟩ := getLive_eq_some.mp hlv
  cases hr : c0.strangerRoom with
  | none =>
    rw [onFindStranger_fst_clean hg hr]
    exact pairInv_findCore h hg hcon hr
  | some r =>
    rw [onFindStranger_fst_tear hg hr]
    obtain ⟨hinv, hgi', hq', hn', hproj, hrm, hnd⟩ := hsl_post h hg hr
    exact pairInv_findCore hinv hgi' (by simpa using hcon) (by simp)

theorem pairInv_onLeaveStranger {s : State} (h : PairInv s) (i : Nat) :
    PairInv (onLeaveStranger s i).1 := by
  unfold onLeaveStranger
  cases hg : getConn s i with
  | none => exact h
  | some c =>
    dsimp only
    by_cases hq : i ∈ s.waitingQueue
    · rw [if_pos hq]
      exact {
        connsNodup := h.connsNodup
        queueNodup := h.queueNodup.erase i
        queueLen := le_trans (List.erase_sublist i s.waitingQueue).length_le h.queueLen
        queueSound := fun j hj => h.queueSound j (List.mem_of_mem_erase hj)
        pairBoth := h.pairBoth
        closedClean := h.closedClean
        pairSym := h.pairSym
        pairFresh := h.pairFresh
        pairUnique := h.pairUnique }
    · rw [if_neg hq]
      cases hr : c.strangerRoom with
      | none => exact h
      | some r =>
        obtain ⟨hinv, _, _, _, _, _, _⟩ := hsl_post h hg hr
        rcases hsl : handleStrangerLeave s i with ⟨a, b⟩
        rw [hsl] at hinv
        exact hinv

theorem pairInv_connect {s : State} (h : PairInv s) (i : Nat) (u : String) :
    PairInv (step s (.connect i u)).1 := by
  show PairInv (match getConn s i with
    | some _ => (s, ([] : List Emission))
    | none => ({ s with conns := aset s.conns i { username := u } }, [])).1
  cases hg : getConn s i with
  | some c => exact h
  | none =>
    have hgor : ∀ j c', getConn { s with conns := aset s.conns i { username := u } } j =
        some c' → (j = i ∧ c' = { username := u }) ∨ (j ≠ i ∧ getConn s j = some c') := by
      intro j c' hj
      by_cases hij : j = i
      · subst hij
        left
        refine ⟨rfl, ?_⟩
        have : getConn { s with conns := aset s.conns j { username := u } } j =
            some { username := u } := alookup_aset_self s.conns j { username := u }
        exact getConn_inj hj this
      · right
        exact ⟨hij, (alookup_aset_ne s.conns { username := u } hij).symm.trans hj⟩
    refine {
      connsNodup := akeys_aset_nodup h.connsNodup i { username := u }
      queueNodup := h.queueNodup
      queueLen := h.queueLen
      queueSound := ?_
      pairBoth := ?_
      closedClean := ?_
      pairSym := ?_
      pairFresh := ?_
      pairUnique := ?_ }
    · intro j hj
      obtain ⟨c, hcg, hcc, hcs, hcp2⟩ := h.queueSound j hj
      have hji : j ≠ i := by
        rintro rfl
        rw [hg] at hcg
        exact Option.noConfusion hcg
      exact ⟨c, (alookup_aset_ne s.conns { username := u } hji).trans hcg, hcc, hcs, hcp2⟩
    · intro j c hget
      rcases hgor j c hget with ⟨rfl, rfl⟩ | ⟨hji, hgs⟩
      · simp
      · exact h.pairBoth j c hgs
    · intro j c hget hconn
      rcases hgor j c hget with ⟨rfl, rfl⟩ | ⟨hji, hgs⟩
      · simp at hconn
      · exact h.closedClean j c hgs hconn
    · intro j c r p hget hsr hpd
      rcases hgor j c hget with ⟨rfl, rfl⟩ | ⟨hji, hgs⟩
      · exact Option.noConfusion hsr
      · obtain ⟨hcc, pc, hpg, hpcc, hpsr, hppd⟩ := h.pairSym j c r p hgs hsr hpd
        have hpni : p ≠ i := by
          rintro rfl
          rw [hg] at hpg
          exact Option.noConfusion hpg
        exact ⟨hcc, pc, (alookup_aset_ne s.conns { username := u } hpni).trans hpg,
          hpcc, hpsr, hppd⟩
    · intro j c r hget hsr
      rcases hgor j c hget with ⟨rfl, rfl⟩ | ⟨hji, hgs⟩
      · exact Option.noConfusion hsr
      · exact h.pairFresh j c r hgs hsr
    · intro j k cj ck r hgj hgk hsj hsk
      rcases hgor j cj hgj with ⟨rfl, rfl⟩ | ⟨hji, hgsj⟩
      · exact Option.noConfusion hsj
      · rcases hgor k ck hgk with ⟨rfl, rfl⟩ | ⟨hki, hgsk⟩
        · exact Option.noConfusion hsk
        · exact h.pairUnique j k cj ck r hgsj hgsk hsj hsk

/-- The room-leave and queue-removal stages of the `disconnect` handler
(proof-side name for the state threaded through lines 269-276). -/
def disconnRoomQueue (t : State) (i : Nat) (c₀ : Conn) : State :=
  let s1 :=
    match c₀.currentRoom with
    | some r => if r = "" then t else leaveRoom t i r
    | none => t
  if i ∈ s1.waitingQueue then { s1 with waitingQueue := s1.waitingQueue.erase i } else s1

theorem disconnRoomQueue_facts (t : State) (i : Nat) (c₀ : Conn) :
    (disconnRoomQueue t i c₀).conns = t.conns
    ∧ (disconnRoomQueue t i c₀).waitingQueue.Sublist t.waitingQueue
    ∧ (disconnRoomQueue t i c₀).nextId = t.nextId
    ∧ (t.waitingQueue.Nodup → i ∉ (disconnRoomQueue t i c₀).waitingQueue) := by
  have step2 : ∀ s1 : State, s1.conns = t.conns → s1.waitingQueue = t.waitingQueue →
      s1.nextId = t.nextId →
      (if i ∈ s1.waitingQueue then { s1 with waitingQueue := s1.waitingQueue.erase i }
        else s1).conns = t.conns
      ∧ (if i ∈ s1.waitingQueue then { s1 with waitingQueue := s1.waitingQueue.erase i }
        else s1).waitingQueue.Sublist t.waitingQueue
      ∧ (if i ∈ s1.waitingQueue then { s1 with waitingQueue := s1.waitingQueue.erase i }
        else s1).nextId = t.nextId
      ∧ (t.waitingQueue.Nodup →
        i ∉ (if i ∈ s1.waitingQueue then { s1 with waitingQueue := s1.waitingQueue.erase i }
          else s1).waitingQueue) := by
    intro s1 h1 h2 h3
    by_cases hmem : i ∈ s1.waitingQueue
    · rw [if_pos hmem]
      refine ⟨h1, ?_, h3, fun hnd => ?_⟩
      · rw [← h2]
        exact List.erase_sublist i s1.waitingQueue
      · have : s1.waitingQueue.Nodup := h2 ▸ hnd
        exact this.not_mem_erase
    · rw [if_neg hmem]
      refine ⟨h1, by rw [h2], h3, fun _ => hmem⟩
  unfold disconnRoomQueue
  rcases c₀.currentRoom with _ | r
  · exact step2 t rfl rfl rfl
  · dsimp only
    by_cases hre : r = ""
    · rw [if_pos hre]
      exact step2 t rfl rfl rfl
    · rw [if_neg hre]
      exact step2 (leaveRoom t i r) (leaveRoom_conns t i r) (leaveRoom_queue t i r)
        (leaveRoom_nextId t i r)

theorem onDisconnect_fst (t : State) (i : Nat) {c₀ : Conn} (hg : getConn t i = some c₀) :
    (onDisconnect t i).1 =
      (match c₀.strangerRoom with
       | some _ => (handleStrangerLeave (disconnRoomQueue t i c₀) i).1
       | none => disconnRoomQueue t i c₀) := by
  unfold onDisconnect disconnRoomQueue
  simp only [hg]
  rcases c₀.currentRoom with _ | r
  · rcases c₀.strangerRoom with _ | r0 <;> rfl
  · dsimp only
    by_cases hre : r = ""
    · simp only [if_pos hre]
      rcases c₀.strangerRoom with _ | r0 <;> rfl
    · simp only [if_neg hre]
      rcases c₀.strangerRoom with _ | r0 <;> rfl

theorem onDisconnect_fst_none (t : State) (i : Nat) {c₀ : Conn}
    (hg : getConn t i = some c₀) (hr : c₀.strangerRoom = none) :
    (onDisconnect t i).1 = disconnRoomQueue t i c₀ := by
  rw [onDisconnect_fst t i hg, hr]

theorem onDisconnect_fst_some (t : State) (i : Nat) {c₀ : Conn} {r : Nat}
    (hg : getConn t i = some c₀) (hr : c₀.strangerRoom = some r) :
    (onDisconnect t i).1 = (handleStrangerLeave (disconnRoomQueue t i c₀) i).1 := by
  rw [onDisconnect_fst t i hg, hr]

/-- Disconnect cleanup preserves `PairInv`. -/
theorem pairInv_disconnectCleanup {s : State} (h : PairInv s) {i : Nat} {c : Conn}
    (hlv : getLive s i = some c) : PairInv (disconnectCleanup s i).1 := by
  obtain ⟨hg, hcon⟩ := getLive_eq_some.mp hlv
  have ht0 : markClosed s i = setConn s i { c with connected := false } := by
    unfold markClosed
    rw [hg]
  have hgt0 : getConn (markClosed s i) i = some { c with connected := false } := by
    rw [ht0]
    exact getConn_setConn_self s i _
  have hgt0j : ∀ j, j ≠ i → getConn (markClosed s i) j = getConn s j := by
    intro j hji
    rw [ht0]
    exact getConn_setConn_ne s _ hji
  obtain ⟨hd1, hd2, hd3, hd4⟩ := disconnRoomQueue_facts (markClosed s i) i
    { c with connected := false }
  have hqmk : (markClosed s i).waitingQueue = s.waitingQueue := by rw [ht0]; rfl
  have hnmk : (markClosed s i).nextId = s.nextId := by rw [ht0]; rfl
  have hg2 : getConn (disconnRoomQueue (markClosed s i) i { c with connected := false }) i =
      some { c with connected := false } := (getConn_congr hd1 i).trans hgt0
  have hg2j : ∀ j, j ≠ i →
      getConn (disconnRoomQueue (markClosed s i) i { c with connected := false }) j =
      getConn s j := fun j hji => (getConn_congr hd1 j).trans (hgt0j j hji)
  have hq2 : ((disconnRoomQueue (markClosed s i) i
      { c with connected := false }).waitingQueue).Sublist s.waitingQueue := hqmk ▸ hd2
  have hn2 : (disconnRoomQueue (markClosed s i) i { c with connected := false }).nextId =
      s.nextId := hd3.trans hnmk
  have hnot2 : i ∉ (disconnRoomQueue (markClosed s i) i
      { c with connected := false }).waitingQueue := hd4 (hqmk ▸ h.queueNodup)
  have hnd2 : (akeys (disconnRoomQueue (markClosed s i) i
      { c with connected := false }).conns).Nodup := by
    rw [hd1, ht0]
    exact akeys_aset_nodup h.connsNodup i _
  show PairInv (onDisconnect (markClosed s i) i).1
  cases hr : c.strangerRoom with
  | none =>
    have hr0 : ({ c with connected := false } : Conn).strangerRoom = none := hr
    have hpid : c.partnerId = none := (h.pairBoth i c hg).mp hr
    have hcrec : ({ clearPair c with connected := false } : Conn) =
        { c with connected := false } := by
      cases c
      cases hr
      cases hpid
      rfl
    rw [onDisconnect_fst_none (markClosed s i) i hgt0 hr0]
    exact pairInv_clear_one h false hg (Or.inl hpid) hnd2 hq2 (fun _ => hnot2)
      (le_of_eq hn2.symm) (by rw [hg2, hcrec]) hg2j
  | some r =>
    have hr0 : ({ c with connected := false } : Conn).strangerRoom = some r := hr
    rw [onDisconnect_fst_some (markClosed s i) i hgt0 hr0]
    have hpex : ∃ p, c.partnerId = some p := by
      cases hpp : c.partnerId with
      | none =>
        have hco := (h.pairBoth i c hg).mpr hpp
        rw [hr] at hco
        exact Option.noConfusion hco
      | some p => exact ⟨p, rfl⟩
    obtain ⟨p, hp⟩ := hpex
    · have hp0 : ({ c with connected := false } : Conn).partnerId = some p := hp
      obtain ⟨hcc, pc, hgp, hpcc, hpsr, hppd⟩ := h.pairSym i c r p hg hr hp
      by_cases hpi : p = i
      · -- self-pairing: the closed socket no longer resolves, only i is cleared
        have hpid0 : ({ c with connected := false } : Conn).partnerId = some i := by
          show c.partnerId = some i
          rw [hp, hpi]
        have hlv2 : getLive (disconnRoomQueue (markClosed s i) i
            { c with connected := false }) i = none := by
          rw [getLive_eq_none]
          intro c' hc'
          rw [getConn_inj hc' hg2]
        rw [hsl_gone _ hg2 hr0 (Or.inr ⟨i, hpid0, hlv2⟩)]
        refine pairInv_clear_one h false hg (Or.inr (by rw [hp, hpi])) ?_ ?_
          (fun _ => hnot2) (le_of_eq hn2.symm) ?_ ?_
        · exact akeys_aset_nodup hnd2 i _
        · exact hq2
        · exact getConn_setConn_self _ i _
        · intro j hji
          rw [getConn_setConn_ne _ _ hji]
          exact hg2j j hji
      · -- distinct partner: both sides cleared, the partner stays connected
        have hgp2 : getLive (disconnRoomQueue (markClosed s i) i
            { c with connected := false }) p = some pc :=
          getLive_eq_some.mpr ⟨(hg2j p hpi).trans hgp, hpcc⟩
        rw [hsl_partner _ hg2 hr0 hp0 hpi hgp2]
        refine pairInv_clear_both h false hg hgp (Ne.symm hpi) hr hp hpsr hppd ?_
          hq2 (le_of_eq hn2.symm) ?_ ?_ ?_
        · exact akeys_aset_nodup (akeys_aset_nodup hnd2 p _) i _
        · exact getConn_setConn_self _ i _
        · rw [getConn_setConn_ne _ _ hpi]
          exact getConn_setConn_self _ p _
        · intro j hji hjp
          rw [getConn_setConn_ne _ _ hji, getConn_setConn_ne _ _ hjp]
          exact hg2j j hji

/-! ### RoomInv preservation -/

theorem setAdd_ne_nil (l : List Nat) (i : Nat) : setAdd l i ≠ [] := by
  unfold setAdd
  split
  · next hmem =>
    intro hcon
    rw [hcon] at hmem
    exact absurd hmem (List.not_mem_nil i)
  · simp

theorem roomsNodup_leaveRoom {s : State} (h : (akeys s.roomMembers).Nodup)
    (i : Nat) (r : String) : (akeys (leaveRoom s i r).roomMembers).Nodup := by
  unfold leaveRoom
  repeat' split
  all_goals first
    | exact h
    | exact akeys_adel_nodup h _
    | exact akeys_aset_nodup h _ _

/-- Core of the `join` handler's room switch: under the listed facts about the
intermediate state `s1` (the old room already left), moving connection `i`
into room `sr` restores `RoomInv`. -/
theorem roomInv_joinSet {s s1 : State} (h : RoomInv s) {i : Nat} {c : Conn} {sr : String}
    (hg : getConn s i = some c) (hcon : c.connected = true) (hsr : sr ≠ "")
    (hconns : s1.conns = s.conns)
    (hroomsNodup : (akeys s1.roomMembers).Nodup)
    (hF3 : ∀ r' l', alookup s1.roomMembers r' = some l' →
      l' ≠ [] ∧ l'.Nodup ∧ i ∉ l' ∧
      ∀ j, j ∈ l' → ∃ cj, getConn s j = some cj ∧ cj.connected = true ∧
        cj.currentRoom = some r')
    (hF4 : ∀ j cj r', j ≠ i → getConn s j = some cj → cj.connected = true →
      cj.currentRoom = some r' → ∃ l', alookup s1.roomMembers r' = some l' ∧ j ∈ l') :
    RoomInv (joinRoom (setConn s1 i { c with currentRoom := some sr }) i sr) := by
  have hgetFinal : ∀ j, getConn (joinRoom (setConn s1 i { c with currentRoom := some sr }) i sr) j
      = if i = j then some { c with currentRoom := some sr } else getConn s j := by
    intro j
    rw [show getConn (joinRoom (setConn s1 i { c with currentRoom := some sr }) i sr) j =
      getConn (setConn s1 i { c with currentRoom := some sr }) j from rfl]
    rw [getConn_setConn]
    by_cases hij : i = j
    · rw [if_pos hij, if_pos hij]
    · rw [if_neg hij, if_neg hij]
      exact getConn_congr hconns j
  have hlookFinal : ∀ r', alookup (joinRoom (setConn s1 i { c with currentRoom := some sr })
      i sr).roomMembers r' =
      if sr = r' then some (setAdd ((alookup s1.roomMembers sr).getD []) i)
      else alookup s1.roomMembers r' := by
    intro r'
    rw [show (joinRoom (setConn s1 i { c with currentRoom := some sr }) i sr).roomMembers =
      (joinRoom (setConn s1 i { c with currentRoom := some sr }) i sr).roomMembers from rfl]
    exact alookup_joinRoom (setConn s1 i { c with currentRoom := some sr }) i sr r'
  refine {
    connsNodup := ?_
    roomsNodup := ?_
    currentRoomNe := ?_
    memberSound := ?_
    roomComplete := ?_ }
  · rw [show (joinRoom (setConn s1 i { c with currentRoom := some sr }) i sr).conns =
      aset s1.conns i { c with currentRoom := some sr } from rfl, hconns]
    exact akeys_aset_nodup h.connsNodup i _
  · rw [show (joinRoom (setConn s1 i { c with currentRoom := some sr }) i sr).roomMembers =
      aset (setConn s1 i { c with currentRoom := some sr }).roomMembers sr
        (setAdd ((alookup (setConn s1 i { c with currentRoom := some sr }).roomMembers sr).getD
          []) i) from rfl]
    exact akeys_aset_nodup hroomsNodup sr _
  · intro j cj hget
    rw [hgetFinal j] at hget
    by_cases hij : i = j
    · rw [if_pos hij] at hget
      obtain rfl := Option.some.inj hget
      intro hcon2
      exact hsr (Option.some.inj hcon2)
    · rw [if_neg hij] at hget
      exact h.currentRoomNe j cj hget
  · intro r' l'' hrl
    rw [hlookFinal r'] at hrl
    by_cases hsrr : sr = r'
    · rw [if_pos hsrr] at hrl
      obtain rfl := Option.some.inj hrl.symm
      have hl0 : ∀ j, j ∈ (alookup s1.roomMembers sr).getD [] →
          j ≠ i ∧ ∃ cj, getConn s j = some cj ∧ cj.connected = true ∧
          cj.currentRoom = some sr := by
        intro j hj
        cases hl : alookup s1.roomMembers sr with
        | none =>
          rw [hl] at hj
          exact absurd hj (List.not_mem_nil j)
        | some l0 =>
          rw [hl] at hj
          obtain ⟨_, _, hni, hmem⟩ := hF3 sr l0 hl
          exact ⟨fun hh => hni (hh ▸ hj), hmem j hj⟩
      have hl0nd : ((alookup s1.roomMembers sr).getD []).Nodup := by
        cases hl : alookup s1.roomMembers sr with
        | none => exact List.nodup_nil
        | some l0 => exact (hF3 sr l0 hl).2.1
      refine ⟨setAdd_ne_nil _ i, setAdd_nodup hl0nd i, ?_⟩
      intro j hj
      rcases mem_setAdd.mp hj with hj | rfl
      · obtain ⟨hji, cj, hcg, hcc, hcr⟩ := hl0 j hj
        refine ⟨cj, ?_, hcc, hsrr ▸ hcr⟩
        rw [hgetFinal j, if_neg (fun hh => hji hh.symm)]
        exact hcg
      · refine ⟨{ c with currentRoom := some sr }, ?_, hcon, by rw [hsrr]⟩
        rw [hgetFinal j, if_pos rfl]
    · rw [if_neg hsrr] at hrl
      obtain ⟨hne, hnd', hni, hmem⟩ := hF3 r' l'' hrl
      refine ⟨hne, hnd', ?_⟩
      intro j hj
      obtain ⟨cj, hcg, hcc, hcr⟩ := hmem j hj
      refine ⟨cj, ?_, hcc, hcr⟩
      rw [hgetFinal j, if_neg (fun hh => hni (by rw [hh]; exact hj))]
      exact hcg
  · intro j cj r' hget hconn hcr
    rw [hgetFinal j] at hget
    by_cases hij : i = j
    · rw [if_pos hij] at hget
      obtain rfl := Option.some.inj hget
      have hr' : r' = sr := by
        have := Option.some.inj hcr
        exact this.symm
      subst hr'
      refine ⟨setAdd ((alookup s1.roomMembers r').getD []) i, ?_, ?_⟩
      · rw [hlookFinal r', if_pos rfl]
      · rw [← hij]
        exact mem_setAdd.mpr (Or.inr rfl)
    · rw [if_neg hij] at hget
      obtain ⟨l', hl', hjl⟩ := hF4 j cj r' (fun hh => hij hh.symm) hget hconn hcr
      by_cases hsrr : sr = r'
      · refine ⟨setAdd ((alookup s1.roomMembers sr).getD []) i, ?_, ?_⟩
        · rw [hlookFinal r', if_pos hsrr]
        · rw [hsrr, hl']
          exact mem_setAdd.mpr (Or.inl hjl)
      · refine ⟨l', ?_, hjl⟩
        rw [hlookFinal r', if_neg hsrr]
        exact hl'

theorem proj_weaken {o o' : Option Conn}
    (h : o.map (fun c => (c.username, c.currentRoom, c.connected)) =
         o'.map (fun c => (c.username, c.currentRoom, c.connected))) :
    o.map (fun c => (c.currentRoom, c.connected)) =
      o'.map (fun c => (c.currentRoom, c.connected)) := by
  cases o with
  | none =>
    cases o' with
    | none => rfl
    | some b => simp at h
  | some a =>
    cases o' with
    | none => simp at h
    | some b =>
      simp only [Option.map_some', Option.some.injEq, Prod.mk.injEq] at h ⊢
      exact ⟨h.2.1, h.2.2⟩

theorem setConn_roomState {s : State} {i : Nat} (cnew : Conn) {cold : Conn}
    (hg : getConn s i = some cold)
    (hcr : cnew.currentRoom = cold.currentRoom) (hcc : cnew.connected = cold.connected)
    (j : Nat) :
    (getConn (setConn s i cnew) j).map (fun c => (c.currentRoom, c.connected)) =
      (getConn s j).map (fun c => (c.currentRoom, c.connected)) := by
  rw [getConn_setConn]
  by_cases hij : i = j
  · rw [if_pos hij, ← hij, hg]
    simp [hcr, hcc]
  · rw [if_neg hij]

theorem refetchBind_roomState (s4 : State) (i n pid : Nat) :
    (refetchBind s4 i n pid).roomMembers = s4.roomMembers
    ∧ (∀ j, (getConn (refetchBind s4 i n pid) j).map (fun c => (c.currentRoom, c.connected)) =
        (getConn s4 j).map (fun c => (c.currentRoom, c.connected)))
    ∧ ((akeys s4.conns).Nodup → (akeys (refetchBind s4 i n pid).conns).Nodup) := by
  unfold refetchBind
  cases hgm : getConn s4 i with
  | none => exact ⟨rfl, fun j => rfl, id⟩
  | some me =>
    dsimp only
    refine ⟨rfl, ?_, fun hnd => akeys_aset_nodup hnd i _⟩
    intro j
    exact setConn_roomState { me with strangerRoom := some n, partnerId := some pid } hgm rfl rfl j

theorem findCore_roomState (s : State) (i : Nat) :
    (findCore s i).1.roomMembers = s.roomMembers
    ∧ (∀ j, (getConn (findCore s i).1 j).map (fun c => (c.currentRoom, c.connected)) =
        (getConn s j).map (fun c => (c.currentRoom, c.connected)))
    ∧ ((akeys s.conns).Nodup → (akeys (findCore s i).1.conns).Nodup) := by
  unfold findCore
  cases hq : s.waitingQueue with
  | nil => exact ⟨rfl, fun j => rfl, id⟩
  | cons p rest =>
    dsimp only
    cases hlv : getLive { s with waitingQueue := rest } p with
    | none => exact ⟨rfl, fun j => rfl, id⟩
    | some pconn =>
      dsimp only
      have hgp : getConn s p = some pconn := by
        rw [getLive_set_queue] at hlv
        exact (getLive_eq_some.mp hlv).1
      obtain ⟨hr1, hr2, hr3⟩ := refetchBind_roomState
        (setConn { s with waitingQueue := rest, nextId := s.nextId + 1 } p
          { pconn with strangerRoom := some s.nextId, partnerId := some i }) i s.nextId p
      refine ⟨hr1, ?_, ?_⟩
      · intro j
        refine (hr2 j).trans ?_
        exact setConn_roomState { pconn with strangerRoom := some s.nextId, partnerId := some i } hgp rfl rfl j
      · intro hnd
        exact hr3 (akeys_aset_nodup hnd p _)

theorem roomInv_onChatMessage {s : State} (h : RoomInv s) (i : Nat) (text : JSVal)
    (t : Nat) : RoomInv (onChatMessage s i text t).1 := by
  obtain ⟨h1, h2, h3, h4⟩ := onChatMessage_state s i text t
  exact roomInv_transfer h (h1 ▸ h.connsNodup) h3 (fun j => by rw [getConn_congr h1 j])

theorem roomInv_onStrangerMessage {s : State} (h : RoomInv s) (i : Nat) (text : JSVal)
    (t : Nat) : RoomInv (onStrangerMessage s i text t).1 := by
  obtain ⟨h1, h2, h3, h4⟩ := onStrangerMessage_state s i text t
  exact roomInv_transfer h (h1 ▸ h.connsNodup) h3 (fun j => by rw [getConn_congr h1 j])

theorem roomInv_onFindStranger {s : State} (h : RoomInv s) (hp : PairInv s) {i : Nat}
    {c0 : Conn} (hlv : getLive s i = some c0) : RoomInv (onFindStranger s i).1 := by
  obtain ⟨hg, hcon⟩ := getLive_eq_some.mp hlv
  cases hr : c0.strangerRoom with
  | none =>
    rw [onFindStranger_fst_clean hg hr]
    obtain ⟨hf1, hf2, hf3⟩ := findCore_roomState s i
    exact roomInv_transfer h (hf3 h.connsNodup) hf1 hf2
  | some r =>
    rw [onFindStranger_fst_tear hg hr]
    obtain ⟨hinv, hgi', hq', hn', hproj, hrm, hnd⟩ := hsl_post hp hg hr
    have hmid : RoomInv (handleStrangerLeave s i).1 := by
      refine roomInv_transfer h hnd hrm ?_
      intro j
      by_cases hji : j = i
      · subst hji
        rw [hgi', hg]
        rfl
      · exact proj_weaken (hproj j hji)
    obtain ⟨hf1, hf2, hf3⟩ := findCore_roomState (handleStrangerLeave s i).1 i
    exact roomInv_transfer hmid (hf3 hmid.connsNodup) hf1 hf2

theorem roomInv_onLeaveStranger {s : State} (h : RoomInv s) (hp : PairInv s) (i : Nat) :
    RoomInv (onLeaveStranger s i).1 := by
  unfold onLeaveStranger
  cases hg : getConn s i with
  | none => exact h
  | some c =>
    dsimp only
    by_cases hq : i ∈ s.waitingQueue
    · rw [if_pos hq]
      exact ⟨h.connsNodup, h.roomsNodup, h.currentRoomNe, h.memberSound, h.roomComplete⟩
    · rw [if_neg hq]
      cases hr : c.strangerRoom with
      | none => exact h
      | some r =>
        obtain ⟨hinv, hgi', hq', hn', hproj, hrm, hnd⟩ := hsl_post hp hg hr
        refine roomInv_transfer h hnd hrm ?_
        intro j
        by_cases hji : j = i
        · subst hji
          rw [hgi', hg]
          rfl
        · exact proj_weaken (hproj j hji)

theorem roomInv_connect {s : State} (h : RoomInv s) (i : Nat) (u : String) :
    RoomInv (step s (.connect i u)).1 := by
  show RoomInv (match getConn s i with
    | some _ => (s, ([] : List Emission))
    | none => ({ s with conns := aset s.conns i { username := u } }, [])).1
  cases hg : getConn s i with
  | some c => exact h
  | none =>
    have hgor : ∀ j c', getConn { s with conns := aset s.conns i { username := u } } j =
        some c' → (j = i ∧ c' = { username := u }) ∨ (j ≠ i ∧ getConn s j = some c') := by
      intro j c' hj
      by_cases hij : j = i
      · subst hij
        left
        refine ⟨rfl, ?_⟩
        have hx : getConn { s with conns := aset s.conns j { username := u } } j =
            some { username := u } := alookup_aset_self s.conns j { username := u }
        exact getConn_inj hj hx
      · right
        exact ⟨hij, (alookup_aset_ne s.conns { username := u } hij).symm.trans hj⟩
    refine {
      connsNodup := akeys_aset_nodup h.connsNodup i { username := u }
      roomsNodup := h.roomsNodup
      currentRoomNe := ?_
      memberSound := ?_
      roomComplete := ?_ }
    · intro j c hget
      rcases hgor j c hget with ⟨rfl, rfl⟩ | ⟨hji, hgs⟩
      · intro hcon
        exact Option.noConfusion hcon
      · exact h.currentRoomNe j c hgs
    · intro r l hl
      obtain ⟨hne, hnd', hmem⟩ := h.memberSound r l hl
      refine ⟨hne, hnd', ?_⟩
      intro j hj
      obtain ⟨cj, hcg, hcc, hcr⟩ := hmem j hj
      have hji : j ≠ i := by
        rintro rfl
        rw [hg] at hcg
        exact Option.noConfusion hcg
      exact ⟨cj, (alookup_aset_ne s.conns { username := u } hji).trans hcg, hcc, hcr⟩
    · intro j cj r hget hconn hcr
      rcases hgor j cj hget with ⟨rfl, rfl⟩ | ⟨hji, hgs⟩
      · exact Option.noConfusion hcr
      · exact h.roomComplete j cj r hgs hconn hcr

theorem roomInv_onJoin {s : State} (h : RoomInv s) {i : Nat} {c : Conn}
    (hlv : getLive s i = some c) (room : JSVal) : RoomInv (onJoin s i room).1 := by
  obtain ⟨hg, hcon⟩ := getLive_eq_some.mp hlv
  unfold onJoin
  simp only [hg]
  by_cases hcr : c.currentRoom = some (safeRoom room)
  · rw [if_pos hcr]
    exact h
  · rw [if_neg hcr]
    rcases hcro : c.currentRoom with _ | old
    · dsimp only
      refine roomInv_joinSet h hg hcon (safeRoom_ne_empty room) rfl h.roomsNodup ?_ ?_
      · intro r' l' hl
        obtain ⟨hne, hnd', hmem⟩ := h.memberSound r' l' hl
        refine ⟨hne, hnd', ?_, hmem⟩
        intro hil
        obtain ⟨ci', hci', hcic, hcri⟩ := hmem i hil
        rw [getConn_inj hci' hg, hcro] at hcri
        exact Option.noConfusion hcri
      · intro j cj r' hji hgj hcj hcrj
        exact h.roomComplete j cj r' hgj hcj hcrj
    · dsimp only
      by_cases hold : old = ""
      · exact absurd (by rw [hcro, hold]) (h.currentRoomNe i c hg)
      · rw [if_neg hold]
        refine roomInv_joinSet h hg hcon (safeRoom_ne_empty room) (leaveRoom_conns s i old)
          (roomsNodup_leaveRoom h.roomsNodup i old) ?_ ?_
        · intro r' l' hl
          rw [alookup_leaveRoom s i hold h.roomsNodup r'] at hl
          by_cases hro : old = r'
          · rw [if_pos hro] at hl
            cases hlk : alookup s.roomMembers old with
            | none =>
              rw [hlk] at hl
              exact Option.noConfusion hl
            | some l =>
              rw [hlk] at hl
              dsimp only at hl
              by_cases her : l.erase i = []
              · rw [if_pos her] at hl
                exact Option.noConfusion hl
              · rw [if_neg her] at hl
                obtain rfl : l.erase i = l' := Option.some.inj hl
                obtain ⟨hne, hnd', hmem⟩ := h.memberSound old l hlk
                refine ⟨her, hnd'.erase i, hnd'.not_mem_erase, ?_⟩
                intro j hj
                obtain ⟨cj, hcg, hcc, hcrj⟩ := hmem j (List.mem_of_mem_erase hj)
                exact ⟨cj, hcg, hcc, hro ▸ hcrj⟩
          · rw [if_neg hro] at hl
            obtain ⟨hne, hnd', hmem⟩ := h.memberSound r' l' hl
            refine ⟨hne, hnd', ?_, hmem⟩
            intro hil
            obtain ⟨ci', hci', hcic, hcri⟩ := hmem i hil
            rw [getConn_inj hci' hg, hcro] at hcri
            exact hro (Option.some.inj hcri)
        · intro j cj r' hji hgj hcj hcrj
          obtain ⟨l, hl, hjl⟩ := h.roomComplete j cj r' hgj hcj hcrj
          rw [alookup_leaveRoom s i hold h.roomsNodup r']
          by_cases hro : old = r'
          · rw [if_pos hro]
            have hl2 : alookup s.roomMembers old = some l := by
              rw [hro]
              exact hl
            rw [hl2]
            dsimp only
            have hji' : j ∈ l.erase i := (List.mem_erase_of_ne hji).mpr hjl
            have her : l.erase i ≠ [] := by
              intro hcon2
              rw [hcon2] at hji'
              exact absurd hji' (List.not_mem_nil j)
            rw [if_neg her]
            exact ⟨l.erase i, rfl, hji'⟩
          · rw [if_neg hro]
            exact ⟨l, hl, hjl⟩

theorem disconnRoomQueue_roomMembers (t : State) (i : Nat) (c₀ : Conn) :
    (disconnRoomQueue t i c₀).roomMembers =
      (match c₀.currentRoom with
       | some r => if r = "" then t.roomMembers else (leaveRoom t i r).roomMembers
       | none => t.roomMembers) := by
  unfold disconnRoomQueue
  rcases c₀.currentRoom with _ | r
  · dsimp only
    split <;> rfl
  · dsimp only
    by_cases hre : r = ""
    · simp only [if_pos hre]
      split <;> rfl
    · simp only [if_neg hre]
      split <;> rfl

/-- Disconnect cleanup preserves `RoomInv`. -/
theorem roomInv_disconnectCleanup {s : State} (h : RoomInv s) (hp : PairInv s) {i : Nat}
    {c : Conn} (hlv : getLive s i = some c) : RoomInv (disconnectCleanup s i).1 := by
  obtain ⟨hg, hcon⟩ := getLive_eq_some.mp hlv
  have ht0 : markClosed s i = setConn s i { c with connected := false } := by
    unfold markClosed
    rw [hg]
  have hgt0 : getConn (markClosed s i) i = some { c with connected := false } := by
    rw [ht0]
    exact getConn_setConn_self s i _
  have hgt0j : ∀ j, j ≠ i → getConn (markClosed s i) j = getConn s j := by
    intro j hji
    rw [ht0]
    exact getConn_setConn_ne s _ hji
  have hrmt0 : (markClosed s i).roomMembers = s.roomMembers := by
    rw [ht0]
    rfl
  obtain ⟨hd1, hd2, hd3, hd4⟩ := disconnRoomQueue_facts (markClosed s i) i
    { c with connected := false }
  have hg2 : getConn (disconnRoomQueue (markClosed s i) i { c with connected := false }) i =
      some { c with connected := false } := (getConn_congr hd1 i).trans hgt0
  have hg2j : ∀ j, j ≠ i →
      getConn (disconnRoomQueue (markClosed s i) i { c with connected := false }) j =
      getConn s j := fun j hji => (getConn_congr hd1 j).trans (hgt0j j hji)
  have hnd2 : (akeys (disconnRoomQueue (markClosed s i) i
      { c with connected := false }).conns).Nodup := by
    rw [hd1, ht0]
    exact akeys_aset_nodup h.connsNodup i _
  -- room-membership lookups of the intermediate state, in terms of `s`
  have hlook2 : ∀ r', alookup (disconnRoomQueue (markClosed s i) i
      { c with connected := false }).roomMembers r' =
      (match c.currentRoom with
       | some old =>
         if old = r' then
           (match alookup s.roomMembers old with
            | none => none
            | some l => if l.erase i = [] then none else some (l.erase i))
         else alookup s.roomMembers r'
       | none => alookup s.roomMembers r') := by
    intro r'
    rw [disconnRoomQueue_roomMembers]
    rcases hcro : c.currentRoom with _ | old
    · dsimp only
      rw [hrmt0]
    · have hold : old ≠ "" := by
        intro hcon2
        exact h.currentRoomNe i c hg (by rw [hcro, hcon2])
      dsimp only
      rw [if_neg hold]
      rw [alookup_leaveRoom (markClosed s i) i hold (by rw [hrmt0]; exact h.roomsNodup) r']
      rw [hrmt0]
  have hRoom2 : RoomInv (disconnRoomQueue (markClosed s i) i
      { c with connected := false }) := by
    refine {
      connsNodup := hnd2
      roomsNodup := ?_
      currentRoomNe := ?_
      memberSound := ?_
      roomComplete := ?_ }
    · rw [disconnRoomQueue_roomMembers]
      rcases ({ c with connected := false } : Conn).currentRoom with _ | r0
      · rw [hrmt0]
        exact h.roomsNodup
      · dsimp only
        by_cases hre : r0 = ""
        · rw [if_pos hre, hrmt0]
          exact h.roomsNodup
        · rw [if_neg hre]
          exact roomsNodup_leaveRoom (by rw [hrmt0]; exact h.roomsNodup) i r0
    · intro j cj hgj
      by_cases hji : j = i
      · subst hji
        obtain rfl := getConn_inj hgj hg2
        show c.currentRoom ≠ some ""
        exact h.currentRoomNe j c hg
      · exact h.currentRoomNe j cj ((hg2j j hji).symm.trans hgj).symm.symm
    · intro r' l' hl
      rw [hlook2 r'] at hl
      rcases hcro : c.currentRoom with _ | old
      · rw [hcro] at hl hg2j
        obtain ⟨hne, hnd', hmem⟩ := h.memberSound r' l' hl
        refine ⟨hne, hnd', ?_⟩
        intro j hj
        obtain ⟨cj, hcg, hcc, hcrj⟩ := hmem j hj
        have hji : j ≠ i := by
          rintro rfl
          rw [getConn_inj hcg hg, hcro] at hcrj
          exact Option.noConfusion hcrj
        exact ⟨cj, (hg2j j hji).trans hcg, hcc, hcrj⟩
      · rw [hcro] at hl hg2j
        dsimp only at hl
        by_cases hro : old = r'
        · rw [if_pos hro] at hl
          cases hlk : alookup s.roomMembers old with
          | none =>
            rw [hlk] at hl
            exact Option.noConfusion hl
          | some l =>
            rw [hlk] at hl
            dsimp only at hl
            by_cases her : l.erase i = []
            · rw [if_pos her] at hl
              exact Option.noConfusion hl
            · rw [if_neg her] at hl
              obtain rfl : l.erase i = l' := Option.some.inj hl
              obtain ⟨hne, hnd', hmem⟩ := h.memberSound old l hlk
              refine ⟨her, hnd'.erase i, ?_⟩
              intro j hj
              have hji : j ≠ i := by
                rintro rfl
                exact hnd'.not_mem_erase hj
              obtain ⟨cj, hcg, hcc, hcrj⟩ := hmem j (List.mem_of_mem_erase hj)
              exact ⟨cj, (hg2j j hji).trans hcg, hcc, hro ▸ hcrj⟩
        · rw [if_neg hro] at hl
          obtain ⟨hne, hnd', hmem⟩ := h.memberSound r' l' hl
          refine ⟨hne, hnd', ?_⟩
          intro j hj
          obtain ⟨cj, hcg, hcc, hcrj⟩ := hmem j hj
          have hji : j ≠ i := by
            rintro rfl
            rw [getConn_inj hcg hg, hcro] at hcrj
            exact hro (Option.some.inj hcrj)
          exact ⟨cj, (hg2j j hji).trans hcg, hcc, hcrj⟩
    · intro j cj r' hgj hconn hcrj
      by_cases hji : j = i
      · subst hji
        obtain rfl := getConn_inj hgj hg2
        exact absurd hconn (by simp)
      · have hgs : getConn s j = some cj := (hg2j j hji).symm.trans hgj
        obtain ⟨l, hl, hjl⟩ := h.roomComplete j cj r' hgs hconn hcrj
        rw [hlook2 r']
        rcases hcro : c.currentRoom with _ | old
        · exact ⟨l, hl, hjl⟩
        · dsimp only
          by_cases hro : old = r'
          · rw [if_pos hro]
            have hl2 : alookup s.roomMembers old = some l := by
              rw [hro]
              exact hl
            rw [hl2]
            dsimp only
            have hji' : j ∈ l.erase i := (List.mem_erase_of_ne hji).mpr hjl
            have her : l.erase i ≠ [] := by
              intro hcon2
              rw [hcon2] at hji'
              exact absurd hji' (List.not_mem_nil j)
            rw [if_neg her]
            exact ⟨l.erase i, rfl, hji'⟩
          · rw [if_neg hro]
            exact ⟨l, hl, hjl⟩
  -- final state: either s2 itself, or s2 with the pairing fields of i (and the
  -- partner) cleared — neither affects RoomInv's fields
  show RoomInv (onDisconnect (markClosed s i) i).1
  cases hr : c.strangerRoom with
  | none =>
    have hr0 : ({ c with connected := false } : Conn).strangerRoom = none := hr
    rw [onDisconnect_fst_none (markClosed s i) i hgt0 hr0]
    exact hRoom2
  | some r =>
    have hr0 : ({ c with connected := false } : Conn).strangerRoom = some r := hr
    rw [onDisconnect_fst_some (markClosed s i) i hgt0 hr0]
    have hpex : ∃ p, c.partnerId = some p := by
      cases hpp : c.partnerId with
      | none =>
        have hco := (hp.pairBoth i c hg).mpr hpp
        rw [hr] at hco
        exact Option.noConfusion hco
      | some p => exact ⟨p, rfl⟩
    obtain ⟨p, hpd⟩ := hpex
    have hp0 : ({ c with connected := false } : Conn).partnerId = some p := hpd
    obtain ⟨hcc, pc, hgp, hpcc, hpsr, hppd⟩ := hp.pairSym i c r p hg hr hpd
    by_cases hpi : p = i
    · have hpid0 : ({ c with connected := false } : Conn).partnerId = some i := by
        show c.partnerId = some i
        rw [hpd, hpi]
      have hlv2 : getLive (disconnRoomQueue (markClosed s i) i
          { c with connected := false }) i = none := by
        rw [getLive_eq_none]
        intro c' hc'
        rw [getConn_inj hc' hg2]
      rw [hsl_gone _ hg2 hr0 (Or.inr ⟨i, hpid0, hlv2⟩)]
      refine roomInv_transfer hRoom2 (akeys_aset_nodup hnd2 i _) rfl ?_
      intro j
      rw [getConn_setConn]
      by_cases hij : i = j
      · rw [if_pos hij, ← hij, hg2]
        rfl
      · rw [if_neg hij]
    · have hgp2 : getLive (disconnRoomQueue (markClosed s i) i
          { c with connected := false }) p = some pc :=
        getLive_eq_some.mpr ⟨(hg2j p hpi).trans hgp, hpcc⟩
      rw [hsl_partner _ hg2 hr0 hp0 hpi hgp2]
      refine roomInv_transfer hRoom2
        (akeys_aset_nodup (akeys_aset_nodup hnd2 p _) i _) rfl ?_
      intro j
      rw [getConn_setConn]
      by_cases hij : i = j
      · rw [if_pos hij, ← hij, hg2]
        rfl
      · rw [if_neg hij, getConn_setConn]
        by_cases hpj : p = j
        · rw [if_pos hpj, ← hpj, (hg2j p hpi).trans hgp]
          rfl
        · rw [if_neg hpj]

/-- A state predicate survives `guardLive` if it holds now and after the action
whenever the socket is live. -/
theorem guardLive_inv {s : State} {i : Nat} {act : State × List Emission}
    {P : State → Prop} (hs : P s)
    (hact : ∀ c, getLive s i = some c → P act.1) :
    P (guardLive s i act).1 := by
  unfold guardLive
  cases hlv : getLive s i with
  | none =>
    rw [if_neg (by decide : ¬ ((none : Option Conn).isSome = true))]
    exact hs
  | some c =>
    have hc : (some c).isSome = true := rfl
    rw [if_pos hc]
    exact hact c hlv

/-- Every event preserves both invariants. -/
theorem invs_step {s : State} (hR : RoomInv s) (hP : PairInv s) (e : InEv) :
    RoomInv (step s e).1 ∧ PairInv (step s e).1 := by
  cases e with
  | connect i u =>
    exact ⟨roomInv_connect hR i u, pairInv_connect hP i u⟩
  | join i room =>
    show RoomInv (guardLive s i (onJoin s i room)).1
      ∧ PairInv (guardLive s i (onJoin s i room)).1
    exact ⟨guardLive_inv hR (fun c hlv => roomInv_onJoin hR hlv room),
           guardLive_inv hP (fun c hlv => pairInv_onJoin hP i room)⟩
  | chatMsg i text t =>
    show RoomInv (guardLive s i (onChatMessage s i text t)).1
      ∧ PairInv (guardLive s i (onChatMessage s i text t)).1
    exact ⟨guardLive_inv hR (fun c hlv => roomInv_onChatMessage hR i text t),
           guardLive_inv hP (fun c hlv => pairInv_onChatMessage hP i text t)⟩
  | typing i v =>
    show RoomInv (guardLive s i (onTyping s i v)).1
      ∧ PairInv (guardLive s i (onTyping s i v)).1
    exact ⟨guardLive_inv hR (fun c hlv => by rw [onTyping_fst]; exact hR),
           guardLive_inv hP (fun c hlv => by rw [onTyping_fst]; exact hP)⟩
  | findStranger i =>
    show RoomInv (guardLive s i (onFindStranger s i)).1
      ∧ PairInv (guardLive s i (onFindStranger s i)).1
    exact ⟨guardLive_inv hR (fun c hlv => roomInv_onFindStranger hR hP hlv),
           guardLive_inv hP (fun c hlv => pairInv_onFindStranger hP hlv)⟩
  | strangerMsg i text t =>
    show RoomInv (guardLive s i (onStrangerMessage s i text t)).1
      ∧ PairInv (guardLive s i (onStrangerMessage s i text t)).1
    exact ⟨guardLive_inv hR (fun c hlv => roomInv_onStrangerMessage hR i text t),
           guardLive_inv hP (fun c hlv => pairInv_onStrangerMessage hP i text t)⟩
  | leaveStranger i =>
    show RoomInv (guardLive s i (onLeaveStranger s i)).1
      ∧ PairInv (guardLive s i (onLeaveStranger s i)).1
    exact ⟨guardLive_inv hR (fun c hlv => roomInv_onLeaveStranger hR hP i),
           guardLive_inv hP (fun c hlv => pairInv_onLeaveStranger hP i)⟩
  | disconnect i =>
    show RoomInv (guardLive s i (disconnectCleanup s i)).1
      ∧ PairInv (guardLive s i (disconnectCleanup s i)).1
    exact ⟨guardLive_inv hR (fun c hlv => roomInv_disconnectCleanup hR hP hlv),
           guardLive_inv hP (fun c hlv => pairInv_disconnectCleanup hP hlv)⟩

/-- Both invariants hold in every reachable server state. -/
theorem reachable_invs {s : State} (h : Reachable s) : RoomInv s ∧ PairInv s := by
  induction h with
  | init => exact ⟨roomInv_init, pairInv_init⟩
  | step e hr ih => exact invs_step ih.1 ih.2 e

theorem reachable_roomInv {s : State} (h : Reachable s) : RoomInv s :=
  (reachable_invs h).1

theorem reachable_pairInv {s : State} (h : Reachable s) : PairInv s :=
  (reachable_invs h).2

/-! ### Observable emissions of the disconnect path -/

/-- Emissions of the `disconnect` handler for a socket whose pairing state is
already clear: exactly the room-left notice and updated presence count when
the record still names a (non-empty) current room, nothing otherwise. -/
theorem onDisconnect_ems_none (t : State) (i : Nat) {c₀ : Conn}
    (hg : getConn t i = some c₀) (hr : c₀.strangerRoom = none) :
    ((c₀.currentRoom = none → (onDisconnect t i).2 = [])
     ∧ ∀ r, c₀.currentRoom = some r → r ≠ "" →
        (onDisconnect t i).2 =
          [(Target.room r, Ev.systemMessage (c₀.username ++ " left the room.")),
           (Target.room r, Ev.presence r (getUserCount (leaveRoom t i r) r))]) := by
  constructor
  · intro hcr
    unfold onDisconnect
    simp only [hg, hcr, hr]
  · intro r hcr hne
    unfold onDisconnect
    simp only [hg, hcr, hr]
    rw [if_neg hne]

/-- After one run of the disconnect-cleanup path, the connection record keeps
its username and `currentRoom` but is closed and has no pairing state.  (The
`currentRoom` field is *not* cleared — the source of the C2 divergence.) -/
theorem disconnectCleanup_getConn_self {s : State} (hp : PairInv s) {i : Nat} {c : Conn}
    (hlv : getLive s i = some c) :
    getConn (disconnectCleanup s i).1 i = some (clearPair { c with connected := false }) := by
  obtain ⟨hg, hcon⟩ := getLive_eq_some.mp hlv
  have ht0 : markClosed s i = setConn s i { c with connected := false } := by
    unfold markClosed
    rw [hg]
  have hgt0 : getConn (markClosed s i) i = some { c with connected := false } := by
    rw [ht0]
    exact getConn_setConn_self s i _
  obtain ⟨hd1, hd2, hd3, hd4⟩ := disconnRoomQueue_facts (markClosed s i) i
    { c with connected := false }
  have hg2 : getConn (disconnRoomQueue (markClosed s i) i { c with connected := false }) i =
      some { c with connected := false } := (getConn_congr hd1 i).trans hgt0
  have hg2j : ∀ j, j ≠ i →
      getConn (disconnRoomQueue (markClosed s i) i { c with connected := false }) j =
      getConn s j := by
    intro j hji
    refine (getConn_congr hd1 j).trans ?_
    rw [ht0]
    exact getConn_setConn_ne s _ hji
  show getConn (onDisconnect (markClosed s i) i).1 i = _
  cases hr : c.strangerRoom with
  | none =>
    have hr0 : ({ c with connected := false } : Conn).strangerRoom = none := hr
    rw [onDisconnect_fst_none (markClosed s i) i hgt0 hr0]
    rw [hg2]
    have hpid : c.partnerId = none := (hp.pairBoth i c hg).mp hr
    unfold clearPair
    rw [hr, hpid]
  | some r =>
    have hr0 : ({ c with connected := false } : Conn).strangerRoom = some r := hr
    rw [onDisconnect_fst_some (markClosed s i) i hgt0 hr0]
    have hpex : ∃ p, c.partnerId = some p := by
      cases hpp : c.partnerId with
      | none =>
        have hco := (hp.pairBoth i c hg).mpr hpp
        rw [hr] at hco
        exact Option.noConfusion hco
      | some p => exact ⟨p, rfl⟩
    obtain ⟨p, hpd⟩ := hpex
    have hp0 : ({ c with connected := false } : Conn).partnerId = some p := hpd
    obtain ⟨hcc, pc, hgp, hpcc, hpsr, hppd⟩ := hp.pairSym i c r p hg hr hpd
    by_cases hpi : p = i
    · have hpid0 : ({ c with connected := false } : Conn).partnerId = some i := by
        show c.partnerId = some i
        rw [hpd, hpi]
      have hlv2 : getLive (disconnRoomQueue (markClosed s i) i
          { c with connected := false }) i = none := by
        rw [getLive_eq_none]
        intro c' hc'
        rw [getConn_inj hc' hg2]
      rw [hsl_gone _ hg2 hr0 (Or.inr ⟨i, hpid0, hlv2⟩)]
      exact getConn_setConn_self _ i _
    · have hgp2 : getLive (disconnRoomQueue (markClosed s i) i
          { c with connected := false }) p = some pc :=
        getLive_eq_some.mpr ⟨(hg2j p hpi).trans hgp, hpcc⟩
      rw [hsl_partner _ hg2 hr0 hp0 hpi hgp2]
      exact getConn_setConn_self _ i _

end Chat

/-! ## Claim theorems -/

namespace Chat

/-- C1: the claim states that handling `findStranger` never creates a pairing
link binding a connection to itself.  The code violates it: a connection that
is alone in the waiting pool and issues `findStranger` again pops *itself* as
the candidate (the pop does not exclude the requester) and is paired with
itself — after the trace `connect 0; findStranger 0; findStranger 0` the
state reached binds connection 0's pairing link to partner 0, with both
sides of the "pair" being the same identifier. -/
theorem c1_findStranger_self_pairing :
    (run [.connect 0 "alice", .findStranger 0]).waitingQueue = [0]
    ∧ getConn (run [.connect 0 "alice", .findStranger 0, .findStranger 0]) 0 =
        some { username := "alice", currentRoom := none, strangerRoom := some 0,
               partnerId := some 0, connected := true } := by
  decide

/-- C3 counterexample: the claim says the room name is trimmed and that a
whitespace-only room name is replaced by the fallback; but
`String(room || 'general').slice(0, 50)` performs no trim, so the
whitespace-only name `" "` is kept verbatim. -/
theorem c3_counterexample :
    safeRoom (JSVal.vStr " ") = " " ∧ safeRoom (JSVal.vStr " ") ≠ "general"
    ∧ safeRoom (JSVal.vStr "  dev  ") = "  dev  " := by
  decide

/-- C3 (amended): the effective room name is the input coerced to a string
and capped at 50 units, with no whitespace trimming; only a *falsy* payload
(absent, `null`, empty string, `0`, `false`) is replaced by the fallback
`"general"`.  A non-empty (e.g. whitespace-only) string is kept as-is,
capped.  The result is never empty and never exceeds 50 units. -/
theorem c3_room_normalization (v : JSVal) :
    (truthy v = false → safeRoom v = "general")
    ∧ (∀ str : String, v = JSVal.vStr str → str ≠ "" → safeRoom v = strTake str 50)
    ∧ (safeRoom v).length ≤ 50
    ∧ safeRoom v ≠ "" := by
  refine ⟨?_, ?_, safeRoom_length_le v, safeRoom_ne_empty v⟩
  · intro h
    unfold safeRoom jsOr
    rw [if_neg (by simp [h])]
    decide
  · rintro str rfl h
    have : truthy (JSVal.vStr str) = true := by
      simpa [truthy]
    unfold safeRoom jsOr
    rw [if_pos this]
    rfl

theorem c3_room_normalization_witness :
    safeRoom JSVal.vNull = "general" ∧ safeRoom (JSVal.vStr " lounge ") = strTake " lounge " 50 :=
  ⟨(c3_room_normalization JSVal.vNull).1 rfl,
   (c3_room_normalization (JSVal.vStr " lounge ")).2.1 " lounge " rfl (by decide)⟩

/-- C8: when the popped Waiting Pool candidate `p` is stale (its connection is
gone or closed, `getLive s p = none`), the requester `i` is re-enqueued, the
stale candidate is discarded, the requester receives `waitingStranger`, no
pairing link is created (connection states are untouched), and the remaining
pool entries are left as they are — there is no recursive retry. -/
theorem c8_stale_candidate (s : State) (i p : Nat) (rest : List Nat) (c : Conn)
    (h : getConn s i = some c) (hnr : c.strangerRoom = none)
    (hq : s.waitingQueue = p :: rest) (hstale : getLive s p = none)
    (hip : p ≠ i) (hpr : p ∉ rest) :
    onFindStranger s i =
      ({ s with waitingQueue := setAdd rest i }, [(Target.sock i, Ev.waitingStranger)])
    ∧ i ∈ setAdd rest i
    ∧ p ∉ setAdd rest i
    ∧ (onFindStranger s i).1.conns = s.conns := by
  have hcore : findCore s i =
      ({ s with waitingQueue := setAdd rest i }, [(Target.sock i, Ev.waitingStranger)]) := by
    unfold findCore
    simp only [hq, getLive_set_queue, hstale]
  have heq : onFindStranger s i =
      ({ s with waitingQueue := setAdd rest i }, [(Target.sock i, Ev.waitingStranger)]) := by
    unfold onFindStranger
    simp only [h, hnr, hcore, List.nil_append]
  refine ⟨heq, ?_, ?_, by rw [heq]⟩
  · unfold setAdd
    split
    · assumption
    · simp
  · unfold setAdd
    split
    · exact hpr
    · simp [hpr, hip]

theorem c8_stale_candidate_witness :
    onFindStranger
        { conns := [(0, { username := "amy" }), (1, { username := "bob", connected := false })],
          waitingQueue := [1] } 0 =
      ({ conns := [(0, { username := "amy" }), (1, { username := "bob", connected := false })],
         waitingQueue := [0] }, [(Target.sock 0, Ev.waitingStranger)]) :=
  (c8_stale_candidate
    { conns := [(0, { username := "amy" }), (1, { username := "bob", connected := false })],
      waitingQueue := [1] }
    0 1 [] { username := "amy" } (by decide) rfl rfl (by decide) (by decide) (by decide)).1

/-- C9: the history backlog delivered to a joining connection is exactly the
stored messages of the (normalized) target room, sorted oldest-first by
timestamp, truncated to the most recent 30; every delivered record belongs to
the room, the sequence is ordered by non-decreasing timestamp, and its length
is at most 30. -/
theorem c9_join_history (s : State) (i : Nat) (room : JSVal) (c : Conn)
    (h : getConn s i = some c) (hne : ¬ c.currentRoom = some (safeRoom room)) :
    ((Target.sock i, Ev.history (historyFor s.messages (safeRoom room))) ∈ (onJoin s i room).2)
    ∧ (∀ (msgs : List Msg) (R : String),
        (∀ m ∈ historyFor msgs R, m.room = R)
        ∧ (historyFor msgs R).Pairwise (fun a b => a.ts ≤ b.ts)
        ∧ (historyFor msgs R).length ≤ 30) := by
  constructor
  · simp only [onJoin, h]
    rw [if_neg hne]
    rcases hcr : c.currentRoom with _ | old
    · simp
    · by_cases hold : old = "" <;> simp [hold]
  · intro msgs R
    refine ⟨?_, ?_, ?_⟩
    · intro m hm
      have hm1 : m ∈ List.insertionSort tsLe (msgs.filter (fun m => m.room == R)) :=
        List.mem_of_mem_drop hm
      have hm2 : m ∈ msgs.filter (fun m => m.room == R) :=
        (List.perm_insertionSort tsLe _).mem_iff.mp hm1
      have := (List.mem_filter.mp hm2).2
      simpa using this
    · unfold historyFor
      exact ((List.sorted_insertionSort tsLe _).sublist (List.drop_sublist _ _)).imp
        (fun hab => hab)
    · unfold historyFor
      simp only [List.length_drop]
      omega

theorem c9_join_history_witness :
    (Target.sock 0,
      Ev.history (historyFor [⟨1, "a", "r", "x", 5⟩, ⟨2, "a", "q", "y", 3⟩, ⟨3, "a", "r", "z", 1⟩]
        (safeRoom (JSVal.vStr "r")))) ∈
      (onJoin
        { conns := [(0, { username := "a" })],
          messages := [⟨1, "a", "r", "x", 5⟩, ⟨2, "a", "q", "y", 3⟩, ⟨3, "a", "r", "z", 1⟩] }
        0 (JSVal.vStr "r")).2 :=
  (c9_join_history
    { conns := [(0, { username := "a" })],
      messages := [⟨1, "a", "r", "x", 5⟩, ⟨2, "a", "q", "y", 3⟩, ⟨3, "a", "r", "z", 1⟩] }
    0 (JSVal.vStr "r") { username := "a" } (by decide) (by decide)).1

/-- C10: an inbound `typing` event from a connection with no current room is a
complete no-op (state unchanged, nothing emitted); with a current room, the
event only broadcasts to the room excluding the sender, and the broadcast
`isTyping` field is the strict boolean coercion `!!isTyping` of the payload,
whatever the payload's type. -/
theorem c10_typing_guard (s : State) (i : Nat) (v : JSVal) (c : Conn)
    (h : getConn s i = some c) :
    ((c.currentRoom = none ∨ c.currentRoom = some "") → onTyping s i v = (s, []))
    ∧ (∀ r, c.currentRoom = some r → r ≠ "" →
        onTyping s i v =
          (s, [(Target.roomx r i, Ev.typing c.username (JSVal.vBool (truthy v)))]))
    ∧ (∀ tgt uname pl, (tgt, Ev.typing uname pl) ∈ (onTyping s i v).2 →
        ∃ b : Bool, pl = JSVal.vBool b) := by
  refine ⟨?_, ?_, ?_⟩
  · rintro (hr | hr) <;> simp [onTyping, h, hr]
  · intro r hr hne
    simp [onTyping, h, hr, hne]
  · intro tgt uname pl hmem
    rcases hcr : c.currentRoom with _ | r
    · simp [onTyping, h, hcr] at hmem
    · by_cases hre : r = ""
      · simp [onTyping, h, hcr, hre] at hmem
      · simp [onTyping, h, hcr, hre] at hmem
        exact ⟨truthy v, hmem.2.2⟩

theorem c10_typing_guard_witness :
    onTyping { conns := [(0, { username := "ann" })] } 0 (JSVal.vNum 3) =
      ({ conns := [(0, { username := "ann" })] }, [])
    ∧ onTyping { conns := [(1, { username := "bea", currentRoom := some "general" })] } 1
        (JSVal.vNum 3) =
      ({ conns := [(1, { username := "bea", currentRoom := some "general" })] },
       [(Target.roomx "general" 1, Ev.typing "bea" (JSVal.vBool true))]) :=
  ⟨(c10_typing_guard { conns := [(0, { username := "ann" })] } 0 (JSVal.vNum 3)
      { username := "ann" } (by decide)).1 (Or.inl rfl),
   (c10_typing_guard { conns := [(1, { username := "bea", currentRoom := some "general" })] } 1
      (JSVal.vNum 3) { username := "bea", currentRoom := some "general" } (by decide)).2.1
      "general" rfl (by decide)⟩

/-- C2 counterexample: the claim says running the disconnect-cleanup path
twice produces the same observable side effects as running it once, with no
additional room-left systemMessage or presence events from the second run.
The handler never clears `currentRoom`, so after a first full cleanup the
second run re-emits both room events. -/
theorem c2_counterexample :
    (disconnectCleanup (disconnectCleanup (run [InEv.connect 0 "alice", InEv.connect 1 "bob",
        InEv.join 1 (JSVal.vStr "general"), InEv.join 0 (JSVal.vStr "general")]) 0).1 0).2 =
      [(Target.room "general", Ev.systemMessage "alice left the room."),
       (Target.room "general", Ev.presence "general" 1)] := rfl

/-- C2 (amended): the disconnect-cleanup path is not emission-idempotent.
Running it a second time for the same connection emits nothing exactly when
the connection had no current room; whenever it had one, the second run
re-emits the room-left systemMessage and a presence event for that room,
because `currentRoom` is never cleared by the handler. -/
theorem c2_disconnect_cleanup {s : State} (hs : Reachable s) {i : Nat} {c : Conn}
    (hlv : getLive s i = some c) :
    ((disconnectCleanup (disconnectCleanup s i).1 i).2 = [] ↔ c.currentRoom = none)
    ∧ ∀ r, c.currentRoom = some r →
        ∃ n, (disconnectCleanup (disconnectCleanup s i).1 i).2 =
          [(Target.room r, Ev.systemMessage (c.username ++ " left the room.")),
           (Target.room r, Ev.presence r n)] := by
  have hR := reachable_roomInv hs
  have hP := reachable_pairInv hs
  obtain ⟨hg, hcon⟩ := getLive_eq_some.mp hlv
  have hg1 : getConn (disconnectCleanup s i).1 i =
      some (clearPair { c with connected := false }) :=
    disconnectCleanup_getConn_self hP hlv
  have ht1 : markClosed (disconnectCleanup s i).1 i =
      setConn (disconnectCleanup s i).1 i
        { clearPair { c with connected := false } with connected := false } := by
    unfold markClosed
    rw [hg1]
  have hgt1 : getConn (markClosed (disconnectCleanup s i).1 i) i =
      some { clearPair { c with connected := false } with connected := false } := by
    rw [ht1]
    exact getConn_setConn_self _ i _
  obtain ⟨hem0, hem1⟩ :=
    onDisconnect_ems_none (markClosed (disconnectCleanup s i).1 i) i hgt1 rfl
  have hem0' : c.currentRoom = none →
      (disconnectCleanup (disconnectCleanup s i).1 i).2 = [] := fun h => hem0 h
  have hem1' : ∀ r, c.currentRoom = some r → r ≠ "" →
      (disconnectCleanup (disconnectCleanup s i).1 i).2 =
        [(Target.room r, Ev.systemMessage (c.username ++ " left the room.")),
         (Target.room r, Ev.presence r
           (getUserCount (leaveRoom (markClosed (disconnectCleanup s i).1 i) i r) r))] :=
    fun r hcr hrne => hem1 r hcr hrne
  refine ⟨⟨?_, fun h => hem0' h⟩, ?_⟩
  · intro hnil
    rcases hcr : c.currentRoom with _ | r
    · rfl
    · exfalso
      have hrne : r ≠ "" := by
        intro h0
        exact hR.currentRoomNe i c hg (by rw [hcr, h0])
      have h2 := hem1' r hcr hrne
      rw [h2] at hnil
      exact List.noConfusion hnil
  · intro r hcr
    have hrne : r ≠ "" := by
      intro h0
      exact hR.currentRoomNe i c hg (by rw [hcr, h0])
    exact ⟨_, hem1' r hcr hrne⟩

theorem c2_disconnect_cleanup_witness :
    ∃ n, (disconnectCleanup (disconnectCleanup (run [InEv.connect 0 "alice",
        InEv.connect 1 "bob", InEv.join 1 (JSVal.vStr "general"),
        InEv.join 0 (JSVal.vStr "general")]) 0).1 0).2 =
      [(Target.room "general", Ev.systemMessage ("alice" ++ " left the room.")),
       (Target.room "general", Ev.presence "general" n)] :=
  (@c2_disconnect_cleanup (run [InEv.connect 0 "alice", InEv.connect 1 "bob",
      InEv.join 1 (JSVal.vStr "general"), InEv.join 0 (JSVal.vStr "general")])
    (reachable_run _) 0
    { username := "alice", currentRoom := some "general", strangerRoom := none,
      partnerId := none, connected := true }
    (by rfl)).2 "general" rfl

/-- C4: a join for the room the connection is already in is a complete no-op
(unchanged state, no emissions).  A join for a different (normalized) room
while the connection is in room `old` first emits the leave notice and the
updated presence count to `old`, removes the connection from `old`'s member
set, and adds it to the new room's member set; and in every reachable state a
connection identifier appears in at most one room's member set. -/
theorem c4_join_room_switch {s : State} (hs : Reachable s) {i : Nat} {c : Conn}
    (hg : getConn s i = some c) (room : JSVal) :
    (c.currentRoom = some (safeRoom room) → onJoin s i room = (s, []))
    ∧ (∀ old, c.currentRoom = some old → old ≠ safeRoom room →
        (∃ tail, (onJoin s i room).2 =
          (Target.room old, Ev.systemMessage (c.username ++ " left the room.")) ::
          (Target.room old, Ev.presence old (getUserCount (leaveRoom s i old) old)) :: tail)
        ∧ (∀ l, alookup (onJoin s i room).1.roomMembers old = some l → i ∉ l)
        ∧ (∃ l, alookup (onJoin s i room).1.roomMembers (safeRoom room) = some l ∧ i ∈ l))
    ∧ (∀ r r' l l', alookup s.roomMembers r = some l →
        alookup s.roomMembers r' = some l' → i ∈ l → i ∈ l' → r = r') := by
  have hR := reachable_roomInv hs
  refine ⟨?_, ?_, ?_⟩
  · intro hcr
    unfold onJoin
    simp only [hg]
    rw [if_pos hcr]
  · intro old hcr hne
    have hold : old ≠ "" := by
      intro h0
      exact hR.currentRoomNe i c hg (by rw [hcr, h0])
    have hneq : ¬ c.currentRoom = some (safeRoom room) := by
      rw [hcr]
      intro h0
      exact hne (Option.some.inj h0)
    have heq : onJoin s i room =
        (joinRoom (setConn (leaveRoom s i old) i { c with currentRoom := some (safeRoom room) })
           i (safeRoom room),
         [(Target.room old, Ev.systemMessage (c.username ++ " left the room.")),
          (Target.room old, Ev.presence old (getUserCount (leaveRoom s i old) old))] ++
         [(Target.sock i, Ev.history (historyFor (joinRoom (setConn (leaveRoom s i old) i
             { c with currentRoom := some (safeRoom room) }) i (safeRoom room)).messages
             (safeRoom room))),
          (Target.sock i, Ev.systemMessage ("Welcome " ++ c.username ++ "! You joined #" ++
            safeRoom room ++ ".")),
          (Target.roomx (safeRoom room) i, Ev.systemMessage (c.username ++ " joined the room.")),
          (Target.room (safeRoom room), Ev.presence (safeRoom room)
            (getUserCount (joinRoom (setConn (leaveRoom s i old) i
              { c with currentRoom := some (safeRoom room) }) i (safeRoom room))
              (safeRoom room)))]) := by
      unfold onJoin
      simp only [hg]
      rw [if_neg hneq]
      simp only [hcr]
      rw [if_neg hold]
    refine ⟨⟨[(Target.sock i, Ev.history (historyFor (joinRoom (setConn (leaveRoom s i old) i
        { c with currentRoom := some (safeRoom room) }) i (safeRoom room)).messages
        (safeRoom room))),
      (Target.sock i, Ev.systemMessage ("Welcome " ++ c.username ++ "! You joined #" ++
        safeRoom room ++ ".")),
      (Target.roomx (safeRoom room) i, Ev.systemMessage (c.username ++ " joined the room.")),
      (Target.room (safeRoom room), Ev.presence (safeRoom room)
        (getUserCount (joinRoom (setConn (leaveRoom s i old) i
          { c with currentRoom := some (safeRoom room) }) i (safeRoom room))
          (safeRoom room)))], by rw [heq]; rfl⟩, ?_, ?_⟩
    · intro l hl
      rw [heq] at hl
      dsimp only at hl
      rw [alookup_joinRoom] at hl
      rw [if_neg (fun h0 => hne h0.symm)] at hl
      rw [setConn_roomMembers] at hl
      rw [alookup_leaveRoom s i hold hR.roomsNodup old] at hl
      rw [if_pos rfl] at hl
      cases hlk : alookup s.roomMembers old with
      | none =>
        rw [hlk] at hl
        exact absurd hl (by simp)
      | some l0 =>
        rw [hlk] at hl
        dsimp only at hl
        by_cases her : l0.erase i = []
        · rw [if_pos her] at hl
          exact absurd hl (by simp)
        · rw [if_neg her] at hl
          obtain rfl : l0.erase i = l := Option.some.inj hl
          obtain ⟨-, hnd0, -⟩ := hR.memberSound old l0 hlk
          exact hnd0.not_mem_erase
    · rw [heq]
      dsimp only
      rw [alookup_joinRoom]
      rw [if_pos rfl]
      exact ⟨_, rfl, mem_setAdd.mpr (Or.inr rfl)⟩
  · intro r r' l l' hl hl' hil hil'
    obtain ⟨-, -, hmem⟩ := hR.memberSound r l hl
    obtain ⟨-, -, hmem'⟩ := hR.memberSound r' l' hl'
    obtain ⟨ci, hgi, -, hcri⟩ := hmem i hil
    obtain ⟨ci', hgi', -, hcri'⟩ := hmem' i hil'
    obtain rfl := getConn_inj hgi' hgi
    exact Option.some.inj (hcri.symm.trans hcri')

theorem c4_join_room_switch_witness :
    (∃ tail, (onJoin (run [InEv.connect 0 "ann", InEv.join 0 (JSVal.vStr "red")]) 0
        (JSVal.vStr "blue")).2 =
      (Target.room "red", Ev.systemMessage ("ann" ++ " left the room.")) ::
      (Target.room "red", Ev.presence "red"
        (getUserCount (leaveRoom (run [InEv.connect 0 "ann", InEv.join 0 (JSVal.vStr "red")])
          0 "red") "red")) :: tail)
    ∧ (∀ l, alookup (onJoin (run [InEv.connect 0 "ann", InEv.join 0 (JSVal.vStr "red")]) 0
        (JSVal.vStr "blue")).1.roomMembers "red" = some l → 0 ∉ l)
    ∧ (∃ l, alookup (onJoin (run [InEv.connect 0 "ann", InEv.join 0 (JSVal.vStr "red")]) 0
        (JSVal.vStr "blue")).1.roomMembers (safeRoom (JSVal.vStr "blue")) = some l ∧ 0 ∈ l) :=
  (@c4_join_room_switch (run [InEv.connect 0 "ann", InEv.join 0 (JSVal.vStr "red")])
    (reachable_run _) 0
    { username := "ann", currentRoom := some "red", strangerRoom := none,
      partnerId := none, connected := true }
    (by rfl) (JSVal.vStr "blue")).2.1 "red" rfl (by decide)

/-- C5: in every reachable state the pairing relation is symmetric: if
connection `i`'s record holds pairing channel `r` with partner `p`, then `i`
is still connected and `p`'s record exists, is connected, and holds the same
channel `r` with partner `i`. -/
theorem c5_pairing_symmetry {s : State} (hs : Reachable s) {i p r : Nat} {c : Conn}
    (hg : getConn s i = some c) (hr : c.strangerRoom = some r)
    (hp : c.partnerId = some p) :
    c.connected = true ∧ ∃ pc, getConn s p = some pc ∧ pc.connected = true ∧
      pc.strangerRoom = some r ∧ pc.partnerId = some i :=
  (reachable_pairInv hs).pairSym i c r p hg hr hp

theorem c5_pairing_symmetry_witness :
    ∃ pc, getConn (run [InEv.connect 0 "alice", InEv.connect 1 "bob",
        InEv.findStranger 0, InEv.findStranger 1]) 0 = some pc ∧
      pc.connected = true ∧ pc.strangerRoom = some 0 ∧ pc.partnerId = some 1 :=
  (@c5_pairing_symmetry (run [InEv.connect 0 "alice", InEv.connect 1 "bob",
      InEv.findStranger 0, InEv.findStranger 1])
    (reachable_run _) 1 0 0
    { username := "bob", currentRoom := none, strangerRoom := some 0,
      partnerId := some 0, connected := true }
    (by rfl) rfl rfl).2

/-- C6: in every reachable state the presence count reported for a room equals
the number of distinct live connections whose current room is that room (and
is therefore zero when the room is absent from the directory). -/
theorem c6_presence_count {s : State} (hs : Reachable s) (r : String) :
    getUserCount s r =
      ((akeys s.conns).filter
        (fun j => decide ((getLive s j).map (fun c => c.currentRoom) =
          some (some r)))).length := by
  have hR := reachable_roomInv hs
  have hmemf : ∀ j : Nat, j ∈ (akeys s.conns).filter
      (fun j => decide ((getLive s j).map (fun c => c.currentRoom) = some (some r)))
      ↔ ∃ cj, getLive s j = some cj ∧ cj.currentRoom = some r := by
    intro j
    rw [List.mem_filter]
    constructor
    · rintro ⟨hk, hp⟩
      have hp' := of_decide_eq_true hp
      cases hlv : getLive s j with
      | none =>
        rw [hlv] at hp'
        exact absurd hp' (by simp)
      | some cj =>
        rw [hlv] at hp'
        refine ⟨cj, rfl, ?_⟩
        simpa using hp'
    · rintro ⟨cj, hlv, hcr⟩
      obtain ⟨hgj, hconn⟩ := getLive_eq_some.mp hlv
      refine ⟨?_, decide_eq_true (by simp [hlv, hcr])⟩
      have hkv := alookup_mem hgj
      exact List.mem_map.mpr ⟨(j, cj), hkv, rfl⟩
  cases hlk : alookup s.roomMembers r with
  | none =>
    have hnil : (akeys s.conns).filter
        (fun j => decide ((getLive s j).map (fun c => c.currentRoom) = some (some r))) = [] := by
      rw [List.eq_nil_iff_forall_not_mem]
      intro j hj
      obtain ⟨cj, hlv, hcr⟩ := (hmemf j).mp hj
      obtain ⟨hgj, hconn⟩ := getLive_eq_some.mp hlv
      obtain ⟨l2, hlk2, -⟩ := hR.roomComplete j cj r hgj hconn hcr
      rw [hlk] at hlk2
      exact Option.noConfusion hlk2
    rw [hnil]
    unfold getUserCount
    rw [hlk]
    rfl
  | some l =>
    obtain ⟨hne, hndl, hmem⟩ := hR.memberSound r l hlk
    have hndf : ((akeys s.conns).filter
        (fun j => decide ((getLive s j).map (fun c => c.currentRoom) =
          some (some r)))).Nodup :=
      List.Nodup.filter _ hR.connsNodup
    have hperm : l.Perm ((akeys s.conns).filter
        (fun j => decide ((getLive s j).map (fun c => c.currentRoom) = some (some r)))) := by
      rw [List.perm_ext_iff_of_nodup hndl hndf]
      intro j
      rw [hmemf j]
      constructor
      · intro hj
        obtain ⟨cj, hgj, hconn, hcr⟩ := hmem j hj
        exact ⟨cj, getLive_eq_some.mpr ⟨hgj, hconn⟩, hcr⟩
      · rintro ⟨cj, hlv, hcr⟩
        obtain ⟨hgj, hconn⟩ := getLive_eq_some.mp hlv
        obtain ⟨l2, hlk2, hjl2⟩ := hR.roomComplete j cj r hgj hconn hcr
        rw [hlk] at hlk2
        obtain rfl := Option.some.inj hlk2
        exact hjl2
    have hc : getUserCount s r = l.length := by
      unfold getUserCount
      rw [hlk]
      rfl
    rw [hc, hperm.length_eq]

theorem c6_presence_count_witness :
    getUserCount (run [InEv.connect 0 "ann", InEv.connect 1 "bob",
        InEv.join 0 (JSVal.vStr "red"), InEv.join 1 (JSVal.vStr "red")]) "red" =
      ((akeys (run [InEv.connect 0 "ann", InEv.connect 1 "bob",
          InEv.join 0 (JSVal.vStr "red"), InEv.join 1 (JSVal.vStr "red")]).conns).filter
        (fun j => decide ((getLive (run [InEv.connect 0 "ann", InEv.connect 1 "bob",
            InEv.join 0 (JSVal.vStr "red"), InEv.join 1 (JSVal.vStr "red")]) j).map
          (fun c => c.currentRoom) = some (some "red")))).length
    ∧ getUserCount (run [InEv.connect 0 "ann", InEv.connect 1 "bob",
        InEv.join 0 (JSVal.vStr "red"), InEv.join 1 (JSVal.vStr "red")]) "red" = 2 :=
  ⟨c6_presence_count (reachable_run _) "red", rfl⟩

/-- C7: a `strangerMessage` event is a no-op unless the sender holds a full
pairing link; if the partner's socket no longer exists or is closed, the
sender receives only the ❌ partner-gone notice and nothing else changes;
otherwise the single outbound event goes to the pairing channel (held, in a
reachable state, by both ends of the link) carrying a fresh id, the
length-capped text, and the send-time timestamp. -/
theorem c7_stranger_message (s : State) (i : Nat) (text : JSVal) (t : Nat) :
    (getConn s i = none → onStrangerMessage s i text t = (s, []))
    ∧ (∀ c, getConn s i = some c → (c.strangerRoom = none ∨ c.partnerId = none) →
        onStrangerMessage s i text t = (s, []))
    ∧ (∀ c room pid, getConn s i = some c → c.strangerRoom = some room →
        c.partnerId = some pid → getLive s pid = none →
        onStrangerMessage s i text t =
          (s, [(Target.sock i, Ev.systemMessage "❌ Your partner has disconnected.")]))
    ∧ (∀ c room pid pc, getConn s i = some c → c.strangerRoom = some room →
        c.partnerId = some pid → getLive s pid = some pc →
        onStrangerMessage s i text t =
          ({ s with nextId := s.nextId + 1 },
           [(Target.sroom room,
             Ev.strangerMessage s.nextId c.username
               (strTake (jsToString (jsNullish text (JSVal.vStr ""))) 2000) t)])
        ∧ (strTake (jsToString (jsNullish text (JSVal.vStr ""))) 2000).length ≤ 2000
        ∧ (Reachable s → pc.strangerRoom = some room ∧ pc.partnerId = some i)) := by
  refine ⟨?_, ?_, ?_, ?_⟩
  · intro hg
    unfold onStrangerMessage
    rw [hg]
  · intro c hg hcase
    unfold onStrangerMessage
    rw [hg]
    dsimp only
    rcases hcase with h0 | h0
    · simp only [h0]
    · simp only [h0]
      cases c.strangerRoom <;> rfl
  · intro c room pid hg hsr hpd hgone
    unfold onStrangerMessage
    rw [hg]
    dsimp only
    simp only [hsr, hpd]
    rw [hgone]
  · intro c room pid pc hg hsr hpd hlp
    refine ⟨?_, strTake_length_le _ 2000, ?_⟩
    · unfold onStrangerMessage
      rw [hg]
      dsimp only
      simp only [hsr, hpd]
      rw [hlp]
    · intro hs
      have hP := reachable_pairInv hs
      obtain ⟨hcc, pc', hgp', hpcc', hpsr', hppd'⟩ := hP.pairSym i c room pid hg hsr hpd
      obtain ⟨hgp, hconn⟩ := getLive_eq_some.mp hlp
      obtain rfl : pc' = pc := getConn_inj hgp' hgp
      exact ⟨hpsr', hppd'⟩

theorem c7_stranger_message_witness :
    onStrangerMessage (run [InEv.connect 0 "alice", InEv.connect 1 "bob",
        InEv.findStranger 0, InEv.findStranger 1]) 0 (JSVal.vStr "hi") 7 =
      ({ run [InEv.connect 0 "alice", InEv.connect 1 "bob",
              InEv.findStranger 0, InEv.findStranger 1] with nextId := 2 },
       [(Target.sroom 0,
         Ev.strangerMessage 1 "alice"
           (strTake (jsToString (jsNullish (JSVal.vStr "hi") (JSVal.vStr ""))) 2000) 7)]) :=
  ((c7_stranger_message (run [InEv.connect 0 "alice", InEv.connect 1 "bob",
      InEv.findStranger 0, InEv.findStranger 1]) 0 (JSVal.vStr "hi") 7).2.2.2
    _ 0 1 _ rfl rfl rfl rfl).1

end Chat
